import Mathlib

/-!
Verification of the TIS artifact extraction tools.

This development embeds, in Lean, the parts of the repository that decide
artifact classification, deletion semantics, adaptive-depth fetching,
HTTP-request classification, latest-artifact selection, VeMoX version
parsing, test-configuration cross-checking and per-component partitioning,
and proves (or refutes) the specified properties about them.

Python dictionaries are modelled as association lists in insertion order,
optional dictionary entries as `Option`, and the attribute bag of a tree
node as a list of name/value pairs.  External effects (the network, the
clock and the `datetime` parser) are modelled as explicit parameters: a
fetch outcome oracle, an integer `now`, and a `parse : String → Option Int`
standing for `_parse_ticks_to_datetime`.
-/

namespace TISModel

/-! ## Tree node model (`tis_artifact_extractor.py`)

A node of the remote catalog, as consumed by
`TISAPIService._extract_all_vveh_from_tree`.  The fields mirror the
dictionary keys read by the source: `rId`, `name`, `componentType.name`,
`component.name`, `componentGrp.name`, `attributes`, `children`. -/

structure PyAttr where
  name : Option String
  value : Option String
  deriving Repr, DecidableEq

structure NodeData where
  rId : Option String
  name : Option String
  componentTypeName : Option String
  componentName : Option String
  componentGrpName : Option String
  attributes : List PyAttr
  deriving Repr, DecidableEq

inductive Node where
  | mk : NodeData → List Node → Node
  deriving Repr

def Node.data : Node → NodeData
  | .mk d _ => d

def Node.children : Node → List Node
  | .mk _ cs => cs

/-- Python `data.get('name', 'Unknown')`. -/
def nodeName (d : NodeData) : String :=
  d.name.getD "Unknown"

/-! ## Deletion semantics (`_is_artifact_deleted`)

`parse` stands for `_parse_ticks_to_datetime` (returning `none` on parse
failure) and `now` for `datetime.datetime.now(timezone.utc)`; instants are
integers. -/

/-- Python truthiness of an optional string. -/
def isTruthy : Option String → Bool
  | some s => s ≠ ""
  | none => false

/-- `_is_artifact_deleted`: scan the attributes; at the first
`tisFileDeletedDate` attribute with a truthy value, return whether it
parses to an instant `≤ now` (`false` on parse failure); attributes whose
value is falsy are skipped by the loop. -/
def isArtifactDeleted (parse : String → Option Int) (now : Int) :
    List PyAttr → Bool
  | [] => false
  | a :: rest =>
    if a.name = some "tisFileDeletedDate" then
      match a.value with
      | some v =>
        if v ≠ "" then
          match parse v with
          | some t => decide (t ≤ now)
          | none => false
        else isArtifactDeleted parse now rest
      | none => isArtifactDeleted parse now rest
    else isArtifactDeleted parse now rest

/-- The first `tisFileDeletedDate` attribute whose value is truthy (the one
`_is_artifact_deleted` bases its answer on). -/
def firstTruthyDeletedDate : List PyAttr → Option String
  | [] => none
  | a :: rest =>
    if a.name = some "tisFileDeletedDate" ∧ isTruthy a.value then a.value
    else firstTruthyDeletedDate rest

/-- `_get_life_cycle_status`: value of the first `lifeCycleStatus`
attribute (returned even when the value is `None`). -/
def getLifeCycleStatus : List PyAttr → Option String
  | [] => none
  | a :: rest =>
    if a.name = some "lifeCycleStatus" then a.value
    else getLifeCycleStatus rest

/-! ## Classifier (`_extract_all_vveh_from_tree`) -/

/-- The filter constants from `config.py` used by the classifier. -/
structure FilterConfig where
  componentTypeFilter : Option (List String)
  componentNameFilter : Option (List String)
  componentGrpFilter : Option String
  lifeCycleStatusFilter : Option (List String)
  skipDeletedArtifacts : Bool
  deriving Repr

/-- `COMPONENT_TYPE_FILTER is None or component_type_name in FILTER`. -/
def isMatchingType (cfg : FilterConfig) (d : NodeData) : Bool :=
  match cfg.componentTypeFilter with
  | none => true
  | some l =>
    match d.componentTypeName with
    | some s => l.contains s
    | none => false

/-- `COMPONENT_NAME_FILTER is None or component_def_name in FILTER`. -/
def isMatchingComponent (cfg : FilterConfig) (d : NodeData) : Bool :=
  match cfg.componentNameFilter with
  | none => true
  | some l =>
    match d.componentName with
    | some s => l.contains s
    | none => false

/-- `COMPONENT_GRP_FILTER is None or component_grp_name == FILTER`. -/
def isMatchingGrp (cfg : FilterConfig) (d : NodeData) : Bool :=
  match cfg.componentGrpFilter with
  | none => true
  | some g => d.componentGrpName = some g

/-- `not LIFE_CYCLE_STATUS_FILTER or life_cycle_status in FILTER`
(a `None` or empty filter disables the check). -/
def isMatchingStatus (cfg : FilterConfig) (attrs : List PyAttr) : Bool :=
  match cfg.lifeCycleStatusFilter with
  | none => true
  | some [] => true
  | some l =>
    match getLifeCycleStatus attrs with
    | some s => l.contains s
    | none => false

/-- `any(attr.get('name') == 'artifact' for attr in attributes)`. -/
def hasArtifactAttr (attrs : List PyAttr) : Bool :=
  attrs.any (fun a => a.name = some "artifact")

/-- The per-node decision of `_extract_all_vveh_from_tree`, with the same
nested structure as the source: the outer `if` gates on the three tag
filters and non-empty attributes, the inner one on the `artifact`
attribute, the skip-deleted rule and the lifecycle filter. -/
def includeNode (cfg : FilterConfig) (parse : String → Option Int)
    (now : Int) (d : NodeData) : Bool :=
  if isMatchingType cfg d && isMatchingComponent cfg d &&
      isMatchingGrp cfg d && !d.attributes.isEmpty then
    hasArtifactAttr d.attributes &&
      (!cfg.skipDeletedArtifacts || !isArtifactDeleted parse now d.attributes) &&
      isMatchingStatus cfg d.attributes
  else false

/-- The flat conjunction of conditions named by the specification. -/
def candidateSpec (cfg : FilterConfig) (parse : String → Option Int)
    (now : Int) (d : NodeData) : Prop :=
  isMatchingType cfg d = true ∧
  isMatchingComponent cfg d = true ∧
  isMatchingGrp cfg d = true ∧
  d.attributes ≠ [] ∧
  hasArtifactAttr d.attributes = true ∧
  isMatchingStatus cfg d.attributes = true ∧
  (cfg.skipDeletedArtifacts = false ∨ isArtifactDeleted parse now d.attributes = false)

instance (cfg : FilterConfig) (parse : String → Option Int) (now : Int)
    (d : NodeData) : Decidable (candidateSpec cfg parse now d) := by
  unfold candidateSpec; infer_instance

/-- A recorded artifact candidate: the tuple
`(component_id, node_name, full_path, data)` appended to `results`. -/
structure Candidate where
  rId : Option String
  name : String
  path : List String
  node : Node
  deriving Repr

mutual

/-- The traversal of `_extract_all_vveh_from_tree`: record the node when the
classifier accepts it, then recurse into the children that are not pruned
(`_should_skip_folder` on `child.get('name', 'Unknown')`). -/
def extractTree (cfg : FilterConfig) (parse : String → Option Int)
    (now : Int) (skip : String → Bool) : Node → List String → List Candidate
  | .mk d cs, curPath =>
    let fullPath := curPath ++ [nodeName d]
    (if includeNode cfg parse now d then
      [⟨d.rId, nodeName d, fullPath, .mk d cs⟩]
     else []) ++ extractChildren cfg parse now skip cs fullPath

def extractChildren (cfg : FilterConfig) (parse : String → Option Int)
    (now : Int) (skip : String → Bool) :
    List Node → List String → List Candidate
  | [], _ => []
  | c :: rest, fullPath =>
    (if skip (nodeName c.data) then []
     else extractTree cfg parse now skip c fullPath) ++
      extractChildren cfg parse now skip rest fullPath

end

mutual

/-- The same traversal recording every visited node (a node pruned away is
not visited, and neither is its subtree). -/
def visitTree (skip : String → Bool) : Node → List String → List Candidate
  | .mk d cs, curPath =>
    let fullPath := curPath ++ [nodeName d]
    ⟨d.rId, nodeName d, fullPath, .mk d cs⟩ ::
      visitChildren skip cs fullPath

def visitChildren (skip : String → Bool) :
    List Node → List String → List Candidate
  | [], _ => []
  | c :: rest, fullPath =>
    (if skip (nodeName c.data) then []
     else visitTree skip c fullPath) ++ visitChildren skip rest fullPath

end

/-! ## Classifier lemmas -/

theorem includeNode_iff_candidateSpec (cfg : FilterConfig)
    (parse : String → Option Int) (now : Int) (d : NodeData) :
    includeNode cfg parse now d = true ↔ candidateSpec cfg parse now d := by
  unfold includeNode candidateSpec
  cases h1 : isMatchingType cfg d <;>
    cases h2 : isMatchingComponent cfg d <;>
    cases h3 : isMatchingGrp cfg d <;>
    by_cases h4 : d.attributes = [] <;>
    simp [h1, h2, h3, h4] <;> tauto

mutual

theorem extractTree_eq_filter (cfg : FilterConfig) (parse : String → Option Int)
    (now : Int) (skip : String → Bool) :
    ∀ (n : Node) (p : List String),
      extractTree cfg parse now skip n p =
        (visitTree skip n p).filter (fun c => includeNode cfg parse now c.node.data)
  | .mk d cs, p => by
    rw [extractTree, visitTree, List.filter_cons,
      extractChildren_eq_filter cfg parse now skip cs (p ++ [nodeName d])]
    by_cases h : includeNode cfg parse now (Node.mk d cs).data = true
    · simp only [Node.data] at h
      simp [h, Node.data]
    · simp only [Node.data] at h
      simp only [Bool.not_eq_true] at h
      simp [h, Node.data]

theorem extractChildren_eq_filter (cfg : FilterConfig) (parse : String → Option Int)
    (now : Int) (skip : String → Bool) :
    ∀ (cs : List Node) (p : List String),
      extractChildren cfg parse now skip cs p =
        (visitChildren skip cs p).filter (fun c => includeNode cfg parse now c.node.data)
  | [], _ => by rw [extractChildren, visitChildren]; rfl
  | c :: rest, p => by
    rw [extractChildren, visitChildren, List.filter_append,
      extractChildren_eq_filter cfg parse now skip rest p]
    by_cases h : skip (nodeName c.data) = true
    · simp [h]
    · simp only [Bool.not_eq_true] at h
      simp [h, extractTree_eq_filter cfg parse now skip c p]

end

/-- **C1.** Over any configuration and any traversal starting point, the
artifact extraction records exactly the visited nodes accepted by the
classifier, and a node is accepted if and only if: its type tag is in the
configured allowed set or that set is unset, its name tag is in the
configured allowed set or that set is unset, its group tag equals the
configured value or that value is unset, its attributes list is non-empty,
it contains an attribute named "artifact", its lifecycle status is in the
configured allowed set or that set is unset or empty, and skipDeleted is
false or the node is not deleted. -/
theorem artifact_candidate_iff (cfg : FilterConfig)
    (parse : String → Option Int) (now : Int) (skip : String → Bool)
    (n : Node) (p : List String) :
    extractTree cfg parse now skip n p =
      (visitTree skip n p).filter (fun c => includeNode cfg parse now c.node.data)
    ∧ ∀ d : NodeData, includeNode cfg parse now d = true ↔
        candidateSpec cfg parse now d :=
  ⟨extractTree_eq_filter cfg parse now skip n p,
   fun d => includeNode_iff_candidateSpec cfg parse now d⟩

/-! ## Deletion lemmas -/

theorem isArtifactDeleted_iff (parse : String → Option Int) (now : Int) :
    ∀ attrs : List PyAttr,
      isArtifactDeleted parse now attrs = true ↔
        ∃ v t, firstTruthyDeletedDate attrs = some v ∧ parse v = some t ∧ t ≤ now
  | [] => by simp [isArtifactDeleted, firstTruthyDeletedDate]
  | a :: rest => by
    rw [isArtifactDeleted, firstTruthyDeletedDate]
    by_cases hn : a.name = some "tisFileDeletedDate"
    · cases hv : a.value with
      | none => simp [hn, hv, isTruthy, isArtifactDeleted_iff parse now rest]
      | some v =>
        by_cases hne : v = ""
        · simp [hn, hv, hne, isTruthy, isArtifactDeleted_iff parse now rest]
        · cases hp : parse v with
          | none => simp [hn, hv, hne, isTruthy, hp]
          | some t => simp [hn, hv, hne, isTruthy, hp]
    · simp [hn, isArtifactDeleted_iff parse now rest]

/-- **C2.** Deletion semantics: `_is_artifact_deleted` returns true iff the
node carries a (first truthy-valued) `tisFileDeletedDate` attribute that
parses to an instant ≤ now; a value that fails to parse or parses to a
future instant yields false; and a non-deleted node passes or fails the
classifier identically whether skipDeleted is true or false, so it is
still emitted when skipDeleted is true. -/
theorem deletion_semantics (parse : String → Option Int) (now : Int)
    (d : NodeData) :
    (isArtifactDeleted parse now d.attributes = true ↔
      ∃ v t, firstTruthyDeletedDate d.attributes = some v ∧
        parse v = some t ∧ t ≤ now)
    ∧ (∀ v, firstTruthyDeletedDate d.attributes = some v →
        (parse v = none ∨ ∀ t, parse v = some t → now < t) →
        isArtifactDeleted parse now d.attributes = false)
    ∧ (isArtifactDeleted parse now d.attributes = false →
        ∀ tf nf gf lf,
          includeNode ⟨tf, nf, gf, lf, true⟩ parse now d =
            includeNode ⟨tf, nf, gf, lf, false⟩ parse now d) := by
  refine ⟨isArtifactDeleted_iff parse now d.attributes, ?_, ?_⟩
  · intro v hv hbad
    rw [Bool.eq_false_iff]
    intro htrue
    obtain ⟨v', t, hfirst, hparse, hle⟩ :=
      (isArtifactDeleted_iff parse now d.attributes).mp htrue
    rw [hv] at hfirst
    obtain rfl : v = v' := by injection hfirst
    rcases hbad with hnone | hfut
    · rw [hnone] at hparse; exact Option.noConfusion hparse
    · exact absurd hle (not_le.mpr (hfut t hparse))
  · intro hnd tf nf gf lf
    unfold includeNode
    simp only [hnd, Bool.not_false, Bool.not_true, Bool.false_or, Bool.true_or,
      Bool.or_true]
    rfl

/-! ## Adaptive fetcher (`TISAPIService._fetch_component_adaptive`)

The HTTP layer is modelled by an oracle assigning to each successive
request its outcome `(data, timed_out, elapsed)`; `α` is the JSON payload
type.  The per-node depth-override table is an association list from node
id to depth.  A trace records, besides the table, the sequence of values
written to the current node's entry and the `(depth, phase)` of every
request issued (phase 0 = the unlimited-depth attempt, 1 = the
depth-reduction loop, 2 = the minimum-depth backoff retries, 3 = the final
attempt). -/

structure FetchOutcome (α : Type) where
  data : Option α
  timedOut : Bool
  elapsed : Nat
  deriving Repr

structure FetchConfig where
  childrenLevel : Int
  minLevel : Int
  step : Int
  threshold : Nat
  backoffCount : Nat
  deriving Repr

structure AState (α : Type) where
  ov : List (String × Int)
  writes : List Int
  reqs : List (Int × Nat)
  idx : Nat
  deriving Repr

def ovLookup (ov : List (String × Int)) (k : String) : Option Int :=
  (ov.find? (fun p => p.1 = k)).map (·.2)

def ovSet (ov : List (String × Int)) (k : String) (v : Int) :
    List (String × Int) :=
  if (ov.find? (fun p => p.1 = k)).isSome then
    ov.map (fun p => if p.1 = k then (p.1, v) else p)
  else ov ++ [(k, v)]

/-- Record one request and its outcome. -/
def stepReq {α : Type} (oracle : Nat → FetchOutcome α) (st : AState α)
    (depth : Int) (phase : Nat) : FetchOutcome α × AState α :=
  (oracle st.idx,
   { st with idx := st.idx + 1, reqs := st.reqs ++ [(depth, phase)] })

/-- Record a write of `v` to the current node's depth override. -/
def stepWrite {α : Type} (cid : String) (st : AState α) (v : Int) : AState α :=
  { st with ov := ovSet st.ov cid v, writes := st.writes ++ [v] }

/-- Phase 1, the depth-reduction loop (`while current_depth >= MIN`): on
success, possibly record a reduced override when the response was slow; on
timeout (or a slow failure), reduce by the configured step, recording the
override, and retry; on a fast non-timeout failure, reduce by one and
retry.  `fuel` bounds the iteration count (the source loop terminates
whenever the reduction step is positive, and callers pass enough fuel). -/
def phase1 {α : Type} (cfg : FetchConfig) (oracle : Nat → FetchOutcome α)
    (cid : String) : Nat → Int → AState α → Option (α × Int) × AState α
  | 0, _, st => (none, st)
  | fuel + 1, d, st =>
    if d ≥ cfg.minLevel then
      let (o, st) := stepReq oracle st d 1
      match o.data with
      | some data =>
        if o.elapsed > cfg.threshold ∧ d > cfg.minLevel then
          (some (data, d), stepWrite cid st (max cfg.minLevel (d - cfg.step)))
        else (some (data, d), st)
      | none =>
        if o.timedOut || decide (o.elapsed > cfg.threshold) then
          let nd := d - cfg.step
          if nd ≥ cfg.minLevel then
            phase1 cfg oracle cid fuel nd (stepWrite cid st nd)
          else (none, st)
        else phase1 cfg oracle cid fuel (d - 1) st
    else (none, st)

/-- Phase 2, the backoff retries at minimum depth (the cache is bypassed;
on success the override is set to the minimum depth). -/
def phase2 {α : Type} (cfg : FetchConfig) (oracle : Nat → FetchOutcome α)
    (cid : String) : Nat → AState α → Option α × AState α
  | 0, st => (none, st)
  | k + 1, st =>
    let (o, st) := stepReq oracle st cfg.minLevel 2
    match o.data with
    | some data => (some data, stepWrite cid st cfg.minLevel)
    | none => phase2 cfg oracle cid k st

/-- Phases 1–3 from a given starting depth. -/
def runPhases {α : Type} (cfg : FetchConfig) (oracle : Nat → FetchOutcome α)
    (cid : String) (d : Int) (st : AState α) : (Option α × Int) × AState α :=
  match phase1 cfg oracle cid ((d - cfg.minLevel).toNat + 1) d st with
  | (some (data, dep), st) => ((some data, dep), st)
  | (none, st) =>
    match phase2 cfg oracle cid cfg.backoffCount st with
    | (some data, st) => ((some data, cfg.minLevel), st)
    | (none, st) =>
      let (o, st) := stepReq oracle st cfg.minLevel 3
      match o.data with
      | some data =>
        ((some data, cfg.minLevel), stepWrite cid st cfg.minLevel)
      | none => ((none, cfg.minLevel), st)

/-- The unlimited-depth attempt made when the configured level is `-1` and
no positive override is stored: one request at depth `-1` with a short
timeout; on failure, write override 1 and explore iteratively from
depth 1. -/
def unlimitedAttempt {α : Type} (cfg : FetchConfig)
    (oracle : Nat → FetchOutcome α) (cid : String)
    (ov0 : List (String × Int)) : (Option α × Int) × AState α :=
  match (oracle 0).data with
  | some data => ((some data, -1), ⟨ov0, [], [(-1, 0)], 1⟩)
  | none =>
    runPhases cfg oracle cid 1 (stepWrite cid ⟨ov0, [], [(-1, 0)], 1⟩ 1)

/-- `_fetch_component_adaptive`: when the starting depth (the stored
override, defaulting to the configured level) is `-1`, or the configured
level is `-1`, consult the override table: a stored positive override
resumes the iterative logic there; otherwise one unlimited-depth attempt
is made, falling back, on failure, to iterative exploration from depth 1
after writing override 1. -/
def fetchAdaptive {α : Type} (cfg : FetchConfig)
    (oracle : Nat → FetchOutcome α) (cid : String)
    (ov0 : List (String × Int)) : (Option α × Int) × AState α :=
  if (ovLookup ov0 cid).getD cfg.childrenLevel = -1 ∨ cfg.childrenLevel = -1 then
    match ovLookup ov0 cid with
    | some v =>
      if v > 0 then runPhases cfg oracle cid v ⟨ov0, [], [], 0⟩
      else unlimitedAttempt cfg oracle cid ov0
    | none => unlimitedAttempt cfg oracle cid ov0
  else
    runPhases cfg oracle cid ((ovLookup ov0 cid).getD cfg.childrenLevel)
      ⟨ov0, [], [], 0⟩

/-- A run: a sequence of adaptive-fetch calls, each with its own node id
and oracle, threading the override table (which starts empty for a run). -/
def runOv {α : Type} (cfg : FetchConfig) :
    List (String × (Nat → FetchOutcome α)) → List (String × Int) →
      List (String × Int)
  | [], ov => ov
  | c :: rest, ov => runOv cfg rest ((fetchAdaptive cfg c.2 c.1 ov).2.ov)

/-- All values written to the depth override of node `id` during a run, in
order. -/
def runWrites {α : Type} (cfg : FetchConfig) (id : String) :
    List (String × (Nat → FetchOutcome α)) → List (String × Int) → List Int
  | [], _ => []
  | c :: rest, ov =>
    (if c.1 = id then (fetchAdaptive cfg c.2 c.1 ov).2.writes else []) ++
      runWrites cfg id rest ((fetchAdaptive cfg c.2 c.1 ov).2.ov)

/-! ## Override-table lemmas -/

/-- Sequence of writes applied to one key. -/
def applyWrites (ov : List (String × Int)) (cid : String) (ws : List Int) :
    List (String × Int) :=
  ws.foldl (fun o v => ovSet o cid v) ov

theorem lookup_map_update (k : String) (v : Int) :
    ∀ ov : List (String × Int), (ov.find? (fun p => p.1 = k)).isSome = true →
      ovLookup (ov.map (fun p => if p.1 = k then (p.1, v) else p)) k = some v := by
  intro ov h
  induction ov with
  | nil => simp at h
  | cons q rest ih =>
    by_cases hq : q.1 = k
    · unfold ovLookup
      simp [List.find?_cons, hq]
    · rw [List.find?_cons_of_neg _ (by simp [hq])] at h
      unfold ovLookup at ih ⊢
      simp only [List.map_cons, if_neg hq]
      rw [List.find?_cons_of_neg _ (by simp [hq])]
      exact ih h

theorem lookup_map_update_other (k k' : String) (v : Int) (hne : k' ≠ k) :
    ∀ ov : List (String × Int),
      ovLookup (ov.map (fun p => if p.1 = k then (p.1, v) else p)) k' =
        ovLookup ov k' := by
  intro ov
  induction ov with
  | nil => simp [ovLookup]
  | cons q rest ih =>
    unfold ovLookup at ih ⊢
    by_cases hq : q.1 = k
    · have hq' : ¬(q.1 = k') := by rw [hq]; exact fun h => hne h.symm
      simp only [List.map_cons, if_pos hq]
      rw [List.find?_cons_of_neg _ (by simpa using hq'),
        List.find?_cons_of_neg _ (by simpa using hq')]
      exact ih
    · simp only [List.map_cons, if_neg hq]
      by_cases hq' : q.1 = k'
      · rw [List.find?_cons_of_pos _ (by simpa using hq'),
          List.find?_cons_of_pos _ (by simpa using hq')]
      · rw [List.find?_cons_of_neg _ (by simpa using hq'),
          List.find?_cons_of_neg _ (by simpa using hq')]
        exact ih

theorem ovLookup_ovSet_self (ov : List (String × Int)) (k : String) (v : Int) :
    ovLookup (ovSet ov k v) k = some v := by
  unfold ovSet
  split
  case isTrue h => exact lookup_map_update k v ov h
  case isFalse h =>
    unfold ovLookup
    rw [List.find?_append]
    have hnone : ov.find? (fun p => p.1 = k) = none :=
      Option.not_isSome_iff_eq_none.mp h
    simp [hnone]

theorem ovLookup_ovSet_other (ov : List (String × Int)) (k k' : String)
    (v : Int) (hne : k' ≠ k) :
    ovLookup (ovSet ov k v) k' = ovLookup ov k' := by
  unfold ovSet
  split
  · exact lookup_map_update_other k k' v hne ov
  · unfold ovLookup
    rw [List.find?_append]
    cases hfind : ov.find? (fun p => p.1 = k') with
    | some p => simp [hfind]
    | none =>
      simp [hfind, List.find?_cons, show ¬(k = k') from fun h => hne h.symm]

theorem ovSet_bound (ov : List (String × Int)) (k : String) (v m : Int)
    (hov : ∀ p ∈ ov, m ≤ p.2) (hv : m ≤ v) :
    ∀ p ∈ ovSet ov k v, m ≤ p.2 := by
  intro p hp
  unfold ovSet at hp
  split at hp
  · obtain ⟨q, hq, hqe⟩ := List.mem_map.mp hp
    by_cases hqk : q.1 = k
    · rw [if_pos hqk] at hqe; rw [← hqe]; exact hv
    · rw [if_neg hqk] at hqe; rw [← hqe]; exact hov q hq
  · rcases List.mem_append.mp hp with h | h
    · exact hov p h
    · simp only [List.mem_singleton] at h; rw [h]; exact hv

theorem applyWrites_nil (ov : List (String × Int)) (cid : String) :
    applyWrites ov cid [] = ov := rfl

theorem applyWrites_cons (ov : List (String × Int)) (cid : String)
    (v : Int) (ws : List Int) :
    applyWrites ov cid (v :: ws) = applyWrites (ovSet ov cid v) cid ws := rfl

theorem applyWrites_lookup_self (cid : String) :
    ∀ (ws : List Int) (ov : List (String × Int)),
      ovLookup (applyWrites ov cid ws) cid =
        match ws.getLast? with
        | some w => some w
        | none => ovLookup ov cid
  | [], ov => by simp [applyWrites_nil]
  | v :: ws, ov => by
    rw [applyWrites_cons, applyWrites_lookup_self cid ws (ovSet ov cid v)]
    cases hws : ws.getLast? with
    | some w => simp [List.getLast?_cons, hws]
    | none =>
      have : ws = [] := by
        cases ws with
        | nil => rfl
        | cons a l => simp [List.getLast?_cons] at hws
      subst this
      simp [ovLookup_ovSet_self]

theorem applyWrites_lookup_other (cid k : String) (hne : k ≠ cid) :
    ∀ (ws : List Int) (ov : List (String × Int)),
      ovLookup (applyWrites ov cid ws) k = ovLookup ov k
  | [], ov => by simp [applyWrites_nil]
  | v :: ws, ov => by
    rw [applyWrites_cons, applyWrites_lookup_other cid k hne ws,
      ovLookup_ovSet_other _ _ _ _ hne]

theorem applyWrites_bound (cid : String) (m : Int) :
    ∀ (ws : List Int) (ov : List (String × Int)),
      (∀ p ∈ ov, m ≤ p.2) → (∀ w ∈ ws, m ≤ w) →
      ∀ p ∈ applyWrites ov cid ws, m ≤ p.2
  | [], ov, hov, _ => by simpa [applyWrites_nil] using hov
  | v :: ws, ov, hov, hws => by
    rw [applyWrites_cons]
    exact applyWrites_bound cid m ws (ovSet ov cid v)
      (ovSet_bound ov cid v m hov (hws v (by simp)))
      (fun w hw => hws w (by simp [hw]))

/-! ## Monotonicity analysis of the depth overrides -/

/-- Non-increasing sequence of depths. -/
def NonInc (l : List Int) : Prop :=
  List.Chain' (fun a b => b ≤ a) l

theorem nonInc_nil : NonInc [] := List.chain'_nil

theorem nonInc_tail {l : List Int} (h : NonInc l) : NonInc l.tail :=
  List.Chain'.tail h

theorem nonInc_weaken {a b : Int} {l : List Int} (h : NonInc (a :: l))
    (hab : a ≤ b) : NonInc (b :: l) := by
  rw [NonInc, List.chain'_cons'] at h ⊢
  exact ⟨fun y hy => le_trans (h.1 y hy) hab, h.2⟩

theorem getLast?_mem' : ∀ {l : List Int} {x : Int}, l.getLast? = some x → x ∈ l
  | [a], x, h => by simp at h; simp [h]
  | a :: b :: l, x, h => by
    rw [List.getLast?_cons_cons] at h
    exact List.mem_cons_of_mem a (getLast?_mem' h)

theorem nonInc_append_min {d m : Int} {ws : List Int} (h : NonInc (d :: ws))
    (hb : ∀ w ∈ ws, m ≤ w) (hd : m ≤ d) : NonInc (d :: (ws ++ [m])) := by
  rw [NonInc, show d :: (ws ++ [m]) = (d :: ws) ++ [m] by simp,
    List.chain'_append]
  refine ⟨h, List.chain'_singleton m, ?_⟩
  intro x hx y hy
  simp only [List.head?_cons, Option.mem_def, Option.some.injEq] at hy
  subst hy
  have hxm : x ∈ d :: ws := getLast?_mem' hx
  rcases List.mem_cons.mp hxm with rfl | hxw
  · exact hd
  · exact hb x hxw

/-- Phase 1 behaviour: given a non-negative reduction step, the writes it
performs form a non-increasing sequence bounded above by the starting
depth and below by the minimum depth, and the override table receives
exactly those writes; moreover nothing is written when the starting depth
is already below the minimum. -/
theorem phase1_spec {α : Type} (cfg : FetchConfig)
    (oracle : Nat → FetchOutcome α) (cid : String) (hstep : 0 ≤ cfg.step) :
    ∀ (fuel : Nat) (d : Int) (st : AState α),
      ∃ ws : List Int,
        (phase1 cfg oracle cid fuel d st).2.writes = st.writes ++ ws ∧
        (phase1 cfg oracle cid fuel d st).2.ov = applyWrites st.ov cid ws ∧
        NonInc (d :: ws) ∧
        (∀ w ∈ ws, cfg.minLevel ≤ w) ∧
        (¬ cfg.minLevel ≤ d → ws = [])
  | 0, d, st => by
    refine ⟨[], by simp [phase1], by simp [phase1, applyWrites_nil], ?_, ?_, ?_⟩
    · exact List.chain'_singleton d
    · simp
    · intro _; rfl
  | fuel + 1, d, st => by
    rw [phase1]
    by_cases hd : d ≥ cfg.minLevel
    · rw [if_pos hd]
      simp only [stepReq]
      cases hdata : (oracle st.idx).data with
      | some data =>
        dsimp only
        by_cases hslow : (oracle st.idx).elapsed > cfg.threshold ∧ d > cfg.minLevel
        · rw [if_pos hslow]
          refine ⟨[max cfg.minLevel (d - cfg.step)], by simp [stepWrite], ?_, ?_, ?_, ?_⟩
          · simp [stepWrite, applyWrites_cons, applyWrites_nil]
          · refine List.chain'_cons.mpr ⟨?_, List.chain'_singleton _⟩
            exact max_le hd (by omega)
          · intro w hw
            simp only [List.mem_singleton] at hw
            subst hw
            exact le_max_left _ _
          · intro h; exact absurd hd h
        · rw [if_neg hslow]
          exact ⟨[], by simp, by simp [applyWrites_nil], List.chain'_singleton d,
            by simp, fun h => absurd hd h⟩
      | none =>
        dsimp only
        by_cases hto : ((oracle st.idx).timedOut || decide ((oracle st.idx).elapsed > cfg.threshold)) = true
        · rw [if_pos hto]
          by_cases hnd : d - cfg.step ≥ cfg.minLevel
          · rw [if_pos hnd]
            obtain ⟨ws, hw, ho, hc, hb, hz⟩ :=
              phase1_spec cfg oracle cid hstep fuel (d - cfg.step)
                (stepWrite cid ⟨st.ov, st.writes, st.reqs ++ [(d, 1)], st.idx + 1⟩
                  (d - cfg.step))
            refine ⟨(d - cfg.step) :: ws, ?_, ?_, ?_, ?_, ?_⟩
            · rw [hw]; simp [stepWrite]
            · rw [ho]; simp [stepWrite, applyWrites_cons]
            · exact List.chain'_cons.mpr ⟨by omega, hc⟩
            · intro w hw'
              rcases List.mem_cons.mp hw' with rfl | hw'
              · exact hnd
              · exact hb w hw'
            · intro h; exact absurd hd h
          · rw [if_neg hnd]
            exact ⟨[], by simp, by simp [applyWrites_nil], List.chain'_singleton d,
              by simp, fun h => absurd hd h⟩
        · rw [if_neg hto]
          obtain ⟨ws, hw, ho, hc, hb, hz⟩ :=
            phase1_spec cfg oracle cid hstep fuel (d - 1)
              ⟨st.ov, st.writes, st.reqs ++ [(d, 1)], st.idx + 1⟩
          refine ⟨ws, by rw [hw], by rw [ho], ?_, hb, fun h => absurd hd h⟩
          exact nonInc_weaken hc (by omega)
    · rw [if_neg hd]
      exact ⟨[], by simp, by simp [applyWrites_nil], List.chain'_singleton d,
        by simp, fun _ => rfl⟩

/-- Phase 2 behaviour: the minimum-depth backoff loop writes the minimum
depth exactly when one of its attempts succeeds, and nothing otherwise. -/
theorem phase2_spec {α : Type} (cfg : FetchConfig)
    (oracle : Nat → FetchOutcome α) (cid : String) :
    ∀ (k : Nat) (st : AState α),
      ∃ ws : List Int,
        (phase2 cfg oracle cid k st).2.writes = st.writes ++ ws ∧
        (phase2 cfg oracle cid k st).2.ov = applyWrites st.ov cid ws ∧
        (((phase2 cfg oracle cid k st).1 = none ∧ ws = []) ∨
          (∃ data, (phase2 cfg oracle cid k st).1 = some data ∧
            ws = [cfg.minLevel]))
  | 0, st => ⟨[], by simp [phase2], by simp [phase2, applyWrites_nil],
      Or.inl ⟨by simp [phase2], rfl⟩⟩
  | k + 1, st => by
    rw [phase2]
    simp only [stepReq]
    cases hdata : (oracle st.idx).data with
    | some data =>
      dsimp only
      refine ⟨[cfg.minLevel], by simp [stepWrite], ?_, ?_⟩
      · simp [stepWrite, applyWrites_cons, applyWrites_nil]
      · exact Or.inr ⟨data, rfl, rfl⟩
    | none =>
      dsimp only
      obtain ⟨ws, hw, ho, hres⟩ :=
        phase2_spec cfg oracle cid k
          ⟨st.ov, st.writes, st.reqs ++ [(cfg.minLevel, 2)], st.idx + 1⟩
      exact ⟨ws, by rw [hw], by rw [ho], hres⟩

/-- Phases 1–3 together: writes are bounded below by the minimum depth,
they form a non-increasing sequence, and when the starting depth is at
least the minimum depth the whole sequence is bounded above by the
starting depth. -/
theorem runPhases_spec {α : Type} (cfg : FetchConfig)
    (oracle : Nat → FetchOutcome α) (cid : String) (hstep : 0 ≤ cfg.step)
    (d : Int) (st : AState α) :
    ∃ ws : List Int,
      (runPhases cfg oracle cid d st).2.writes = st.writes ++ ws ∧
      (runPhases cfg oracle cid d st).2.ov = applyWrites st.ov cid ws ∧
      (∀ w ∈ ws, cfg.minLevel ≤ w) ∧
      NonInc ws ∧
      (cfg.minLevel ≤ d → NonInc (d :: ws)) := by
  unfold runPhases
  obtain ⟨ws1, hw1, ho1, hc1, hb1, hz1⟩ :=
    phase1_spec cfg oracle cid hstep ((d - cfg.minLevel).toNat + 1) d st
  rcases hp1 : phase1 cfg oracle cid ((d - cfg.minLevel).toNat + 1) d st with ⟨res1, st1⟩
  rw [hp1] at hw1 ho1
  simp only at hw1 ho1
  cases res1 with
  | some pr =>
    rcases pr with ⟨data, dep⟩
    dsimp only
    exact ⟨ws1, hw1, ho1, hb1, nonInc_tail hc1, fun _ => hc1⟩
  | none =>
    dsimp only
    obtain ⟨ws2, hw2, ho2, hres2⟩ := phase2_spec cfg oracle cid cfg.backoffCount st1
    rcases hp2 : phase2 cfg oracle cid cfg.backoffCount st1 with ⟨res2, st2⟩
    rw [hp2] at hw2 ho2 hres2
    simp only at hw2 ho2 hres2
    cases res2 with
    | some data =>
      dsimp only
      rcases hres2 with ⟨h2none, _⟩ | ⟨data', _, hws2⟩
      · exact absurd h2none (by simp)
      · subst hws2
        refine ⟨ws1 ++ [cfg.minLevel], ?_, ?_, ?_, ?_, ?_⟩
        · rw [hw2, hw1, List.append_assoc]
        · rw [ho2, ho1]
          unfold applyWrites
          rw [List.foldl_append]
        · intro w hw
          rcases List.mem_append.mp hw with h | h
          · exact hb1 w h
          · simp only [List.mem_singleton] at h; subst h; exact le_refl _
        · by_cases hmd : cfg.minLevel ≤ d
          · exact nonInc_tail (nonInc_append_min hc1 hb1 hmd)
          · rw [hz1 hmd]; exact List.chain'_singleton _
        · intro hmd
          exact nonInc_append_min hc1 hb1 hmd
    | none =>
      dsimp only
      rcases hres2 with ⟨_, hws2⟩ | ⟨data', hd2, _⟩
      · subst hws2
        simp only [applyWrites_nil, List.append_nil] at hw2 ho2
        simp only [stepReq]
        cases hdata : (oracle st2.idx).data with
        | some data =>
          dsimp only
          refine ⟨ws1 ++ [cfg.minLevel], ?_, ?_, ?_, ?_, ?_⟩
          · simp only [stepWrite]
            rw [hw2, hw1, List.append_assoc]
          · simp only [stepWrite]
            rw [ho2, ho1]
            unfold applyWrites
            rw [List.foldl_append]
            rfl
          · intro w hw
            rcases List.mem_append.mp hw with h | h
            · exact hb1 w h
            · simp only [List.mem_singleton] at h; subst h; exact le_refl _
          · by_cases hmd : cfg.minLevel ≤ d
            · exact nonInc_tail (nonInc_append_min hc1 hb1 hmd)
            · rw [hz1 hmd]; exact List.chain'_singleton _
          · intro hmd
            exact nonInc_append_min hc1 hb1 hmd
        | none =>
          dsimp only
          refine ⟨ws1, ?_, ?_, hb1, nonInc_tail hc1, fun _ => hc1⟩
          · rw [hw2, hw1]
          · rw [ho2, ho1]
      · exact absurd hd2 (by simp)

/-- Optional previously-stored value prepended to a list of writes. -/
def consOpt : Option Int → List Int → List Int
  | some v, l => v :: l
  | none, l => l

/-- All stored overrides are at least the minimum depth. -/
def TableBound (cfg : FetchConfig) (ov : List (String × Int)) : Prop :=
  ∀ p ∈ ov, cfg.minLevel ≤ p.2

theorem ovLookup_mem {ov : List (String × Int)} {k : String} {v : Int}
    (h : ovLookup ov k = some v) : ∃ p ∈ ov, p.2 = v := by
  unfold ovLookup at h
  cases hf : ov.find? (fun p => p.1 = k) with
  | none => rw [hf] at h; simp at h
  | some p =>
    rw [hf] at h
    simp only [Option.map_some', Option.some.injEq] at h
    exact ⟨p, List.mem_of_find?_eq_some hf, h⟩

theorem getLast?_eq_none' : ∀ {l : List Int}, l.getLast? = none → l = []
  | [], _ => rfl
  | [a], h => by simp at h
  | a :: b :: l, h => by rw [List.getLast?_cons_cons] at h; cases getLast?_eq_none' h

theorem getLast?_cons_of_ne_nil {v w : Int} {ws : List Int}
    (h : ws.getLast? = some w) : (v :: ws).getLast? = some w := by
  cases ws with
  | nil => simp at h
  | cons a l => rw [List.getLast?_cons_cons]; exact h

/-- Chains of writes compose across calls: the second chain starts from the
last write of the first (or from the original stored value when the first
call wrote nothing). -/
theorem nonInc_glue (s : Option Int) (ws rest : List Int)
    (h1 : NonInc (consOpt s ws))
    (h2 : NonInc (consOpt
      (match ws.getLast? with | some w => some w | none => s) rest)) :
    NonInc (consOpt s (ws ++ rest)) := by
  cases hlast : ws.getLast? with
  | none =>
    have hnil : ws = [] := getLast?_eq_none' hlast
    subst hnil
    rw [hlast] at h2
    exact h2
  | some w =>
    rw [hlast] at h2
    cases s with
    | none =>
      simp only [consOpt] at h1 h2 ⊢
      rw [NonInc, List.chain'_append]
      refine ⟨h1, nonInc_tail h2, ?_⟩
      intro x hx y hy
      rw [hlast, Option.mem_def, Option.some.injEq] at hx
      subst hx
      exact List.Chain'.rel_head? h2 hy
    | some v =>
      simp only [consOpt] at h1 h2 ⊢
      rw [NonInc, show v :: (ws ++ rest) = (v :: ws) ++ rest by simp,
        List.chain'_append]
      refine ⟨h1, nonInc_tail h2, ?_⟩
      intro x hx y hy
      rw [getLast?_cons_of_ne_nil hlast, Option.mem_def, Option.some.injEq] at hx
      subst hx
      exact List.Chain'.rel_head? h2 hy

/-- Single adaptive-fetch call: its writes are exactly what it applies to
the override table, they are bounded below by the minimum depth, and —
given a non-negative step and either a non-unlimited configured depth with
non-negative minimum, or minimum depth 1 — they continue non-increasingly
from the value previously stored for the node. -/
theorem fetch_spec {α : Type} (cfg : FetchConfig)
    (oracle : Nat → FetchOutcome α) (cid : String) (hstep : 0 ≤ cfg.step)
    (hmain : (cfg.childrenLevel ≠ -1 ∧ 0 ≤ cfg.minLevel) ∨ cfg.minLevel = 1)
    (ov : List (String × Int)) (hInv : TableBound cfg ov) :
    ∃ ws : List Int,
      (fetchAdaptive cfg oracle cid ov).2.writes = ws ∧
      (fetchAdaptive cfg oracle cid ov).2.ov = applyWrites ov cid ws ∧
      (∀ w ∈ ws, cfg.minLevel ≤ w) ∧
      NonInc (consOpt (ovLookup ov cid) ws) := by
  have hlookup : ∀ v, ovLookup ov cid = some v → cfg.minLevel ≤ v := by
    intro v hv
    obtain ⟨p, hp, he⟩ := ovLookup_mem hv
    rw [← he]; exact hInv p hp
  unfold fetchAdaptive
  by_cases hcond : (ovLookup ov cid).getD cfg.childrenLevel = -1 ∨
      cfg.childrenLevel = -1
  · rw [if_pos hcond]
    cases hst : ovLookup ov cid with
    | some v =>
      dsimp only
      by_cases hv : v > 0
      · rw [if_pos hv]
        obtain ⟨ws, hw, ho, hb, hni, hch⟩ :=
          runPhases_spec cfg oracle cid hstep v ⟨ov, [], [], 0⟩
        refine ⟨ws, by simpa using hw, by simpa using ho, hb, ?_⟩
        simp only [consOpt]
        exact hch (hlookup v hst)
      · rw [if_neg hv]
        exfalso
        have hmin_v := hlookup v hst
        rcases hmain with ⟨hch, hm0⟩ | hm1
        · rcases hcond with hd | hc
          · rw [hst] at hd
            simp only [Option.getD_some] at hd
            omega
          · exact hch hc
        · omega
    | none =>
      dsimp only
      unfold unlimitedAttempt
      have hm1 : cfg.minLevel = 1 := by
        rcases hmain with ⟨hch, _⟩ | hm1
        · exfalso
          rcases hcond with hd | hc
          · rw [hst] at hd
            simp only [Option.getD_none] at hd
            exact hch hd
          · exact hch hc
        · exact hm1
      cases hdata : (oracle 0).data with
      | some data =>
        refine ⟨[], rfl, by simp [applyWrites_nil], by simp, ?_⟩
        exact List.chain'_nil
      | none =>
        obtain ⟨ws, hw, ho, hb, hni, hch⟩ :=
          runPhases_spec cfg oracle cid hstep 1
            (stepWrite cid ⟨ov, [], [(-1, 0)], 1⟩ 1)
        refine ⟨1 :: ws, ?_, ?_, ?_, ?_⟩
        · rw [hw]; simp [stepWrite]
        · rw [ho]; simp [stepWrite, applyWrites_cons]
        · intro w hwmem
          rcases List.mem_cons.mp hwmem with rfl | hwmem
          · omega
          · exact hb w hwmem
        · simp only [consOpt]
          exact hch (by omega)
  · rw [if_neg hcond]
    obtain ⟨ws, hw, ho, hb, hni, hch⟩ :=
      runPhases_spec cfg oracle cid hstep
        ((ovLookup ov cid).getD cfg.childrenLevel) ⟨ov, [], [], 0⟩
    refine ⟨ws, by simpa using hw, by simpa using ho, hb, ?_⟩
    cases hst : ovLookup ov cid with
    | some v =>
      simp only [consOpt]
      rw [hst] at hch
      simp only [Option.getD_some] at hch
      exact hch (hlookup v hst)
    | none =>
      simp only [consOpt]
      exact hni

/-- Across a run starting from a table satisfying the bound, the writes for
any fixed id continue non-increasingly from that id's stored value. -/
theorem runWrites_nonInc_aux {α : Type} (cfg : FetchConfig)
    (hstep : 0 ≤ cfg.step)
    (hmain : (cfg.childrenLevel ≠ -1 ∧ 0 ≤ cfg.minLevel) ∨ cfg.minLevel = 1)
    (id : String) :
    ∀ (calls : List (String × (Nat → FetchOutcome α)))
      (ov : List (String × Int)), TableBound cfg ov →
      NonInc (consOpt (ovLookup ov id) (runWrites cfg id calls ov))
  | [], ov, _ => by
    cases h : ovLookup ov id with
    | some v => exact List.chain'_singleton v
    | none => exact List.chain'_nil
  | c :: rest, ov, hInv => by
    obtain ⟨ws, hw, ho, hb, hch⟩ :=
      fetch_spec cfg c.2 c.1 hstep hmain ov hInv
    have hInv' : TableBound cfg (fetchAdaptive cfg c.2 c.1 ov).2.ov := by
      rw [ho]
      exact applyWrites_bound c.1 cfg.minLevel ws ov hInv hb
    have ih := runWrites_nonInc_aux cfg hstep hmain id rest
      (fetchAdaptive cfg c.2 c.1 ov).2.ov hInv'
    rw [runWrites]
    by_cases hcid : c.1 = id
    · subst hcid
      rw [if_pos rfl, hw, ho]
      refine nonInc_glue _ ws _ hch ?_
      rw [ho, applyWrites_lookup_self c.1 ws ov] at ih
      cases hlast : ws.getLast? with
      | some w => rw [hlast] at ih; exact ih
      | none => rw [hlast] at ih; exact ih
    · rw [if_neg hcid]
      simp only [List.nil_append]
      rw [ho] at ih ⊢
      rw [applyWrites_lookup_other c.1 id (fun h => hcid h.symm) ws ov] at ih
      exact ih

/-! ## C4 and C5 -/

/-- Configuration with default depth 3, minimum depth 1, step 1,
threshold 5 s, two backoff retries. -/
def cfgC4 : FetchConfig := ⟨3, 1, 1, 5, 2⟩

/-- Oracle whose first request fails fast without a timeout and whose later
requests succeed. -/
def oracleC4 : Nat → FetchOutcome Nat
  | 0 => ⟨none, false, 0⟩
  | _ + 1 => ⟨some 7, false, 0⟩

/-- **C4 (counterexample).** With default depth 3 and a first fetch failing
with a non-timeout error (data null, timedOut false, fast), the phase does
not stop: a second Phase-1 request is issued at depth 2 (request trace
`[(3, phase 1), (2, phase 1)]`), it succeeds, and the minimum-depth retry
phase is never entered. -/
theorem adaptive_error_stops_counterexample :
    (fetchAdaptive cfgC4 oracleC4 "n" []).2.reqs = [(3, 1), (2, 1)] ∧
    (fetchAdaptive cfgC4 oracleC4 "n" []).1 = (some 7, 2) := by decide

/-- **C4 (amended).** On a fetch that fails with a non-timeout error (data
null, timedOut false) whose elapsed time does not exceed the adaptive
threshold, Phase 1 does not stop: it decrements the depth by one (writing
no override) and continues the loop from there; the phase ends only once
the depth falls below the minimum. -/
theorem adaptive_error_continues_phase1 {α : Type} (cfg : FetchConfig)
    (oracle : Nat → FetchOutcome α) (cid : String) (fuel : Nat) (d : Int)
    (st : AState α) (hd : cfg.minLevel ≤ d)
    (hdata : (oracle st.idx).data = none)
    (hto : (oracle st.idx).timedOut = false)
    (hel : (oracle st.idx).elapsed ≤ cfg.threshold) :
    phase1 cfg oracle cid (fuel + 1) d st =
      phase1 cfg oracle cid fuel (d - 1)
        ⟨st.ov, st.writes, st.reqs ++ [(d, 1)], st.idx + 1⟩ := by
  rw [phase1, if_pos hd]
  simp only [stepReq]
  rw [hdata]
  dsimp only
  rw [hto]
  simp only [Bool.false_or]
  rw [if_neg (by simp [Nat.not_lt.mpr hel])]

/-- Witness for the amended C4 statement at a concrete input. -/
theorem adaptive_error_continues_phase1_witness :
    phase1 cfgC4 oracleC4 "n" 2 3 ⟨[], [], [], 0⟩ =
      phase1 cfgC4 oracleC4 "n" 1 2 ⟨[], [], [(3, 1)], 1⟩ :=
  adaptive_error_continues_phase1 cfgC4 oracleC4 "n" 1 3 ⟨[], [], [], 0⟩
    (by decide) (by decide) (by decide) (by decide)

/-- Configuration with unlimited default depth and minimum depth 2. -/
def cfgC5 : FetchConfig := ⟨-1, 2, 1, 5, 1⟩

/-- Oracle whose first request times out and whose later requests
succeed. -/
def oracleC5 : Nat → FetchOutcome Nat
  | 0 => ⟨none, true, 0⟩
  | _ + 1 => ⟨some 0, false, 0⟩

/-- **C5 (counterexample).** With unlimited default depth and minimum depth
2, one call whose unlimited attempt times out writes override 1 (the
fallback) and then, recovering at the minimum depth, writes override 2:
the write sequence `[1, 2]` for that node is not non-increasing. -/
theorem depth_override_monotone_counterexample :
    runWrites cfgC5 "n" [("n", oracleC5)] [] = [1, 2] ∧
    ¬ NonInc (runWrites cfgC5 "n" [("n", oracleC5)] []) := by
  constructor
  · decide
  · intro h
    rw [show runWrites cfgC5 "n" [("n", oracleC5)] [] = [1, 2] from by decide] at h
    rw [NonInc, List.chain'_cons] at h
    omega

/-- **C5 (amended).** Within a run (the override table starts empty), the
sequence of values written to the depth override of any fixed node id is
monotonically non-increasing, provided the depth-reduction step is
non-negative and either the configured default depth is not unlimited
(with a non-negative minimum depth) or the minimum depth is 1.  (With an
unlimited default depth and a minimum depth above 1, the fallback write of
1 followed by a minimum-depth recovery write violates monotonicity, as the
counterexample shows.) -/
theorem depth_override_monotone {α : Type} (cfg : FetchConfig)
    (hstep : 0 ≤ cfg.step)
    (hmain : (cfg.childrenLevel ≠ -1 ∧ 0 ≤ cfg.minLevel) ∨ cfg.minLevel = 1)
    (calls : List (String × (Nat → FetchOutcome α))) (id : String) :
    NonInc (runWrites cfg id calls []) := by
  have h := runWrites_nonInc_aux cfg hstep hmain id calls []
    (by intro p hp; simp at hp)
  simpa [ovLookup, consOpt] using h

/-- Witness for the amended C5 statement: a run with one timeout-induced
reduction yields the non-increasing write sequence `[2, 1]`. -/
theorem depth_override_monotone_witness :
    NonInc (runWrites (⟨3, 1, 1, 5, 1⟩ : FetchConfig) "n"
      [("n", oracleC5)] []) :=
  depth_override_monotone ⟨3, 1, 1, 5, 1⟩ (by decide)
    (Or.inl ⟨by decide, by decide⟩) [("n", oracleC5)] "n"

/-! ## HTTP request classification (`TISAPIService._make_api_request`)

One call is modelled as a total function of the configuration, the mutable
client state (response cache and counters), the url, the `use_cache` flag
and the outcome of the underlying transport attempt.  The outcome type
enumerates the exception classes the source's `except` clauses dispatch
on: a decodable success; `requests.exceptions.Timeout` (covering connect
and read timeouts, the dedicated `ReadTimeout` clause being a subclass);
and the remaining failures caught by the generic `except Exception` — an
`HTTPError` from `raise_for_status` after retry exhaustion, a connection
error, an undecodable JSON body from `ujson.loads`, or anything else.
Totality of the function is the "never raises" guarantee. -/

inductive ReqEvent (α : Type) where
  | ok (data : α)
  | timeout
  | statusError
  | connectionError
  | decodeError
  | otherError
  deriving Repr, DecidableEq

/-- One transport attempt: its outcome and its elapsed time. -/
structure HttpAttempt (α : Type) where
  event : ReqEvent α
  elapsed : Nat
  deriving Repr, DecidableEq

structure HttpConfig where
  enableCache : Bool
  slowMode : Bool
  cacheMaxSize : Nat
  deriving Repr, DecidableEq

structure HttpState (α : Type) where
  cache : List (String × α)
  cacheHits : Nat
  apiCalls : Nat
  deriving Repr, DecidableEq

/-- Externally observable side effects of one call: whether the network
was touched and whether the slow-mode delay ran. -/
structure ReqEffects where
  didFetch : Bool
  slept : Bool
  deriving Repr, DecidableEq

def cacheLookup {α : Type} (c : List (String × α)) (url : String) : Option α :=
  (c.find? (fun p => p.1 = url)).map (·.2)

/-- `use_cache and self.enable_cache and url in self._response_cache`. -/
def cacheHit {α : Type} (cfg : HttpConfig) (st : HttpState α) (url : String)
    (useCache : Bool) : Bool :=
  useCache && cfg.enableCache && (cacheLookup st.cache url).isSome

def isOkEvent {α : Type} : ReqEvent α → Bool
  | .ok _ => true
  | _ => false

/-- `_make_api_request`: cache check first (counting a cache hit and
returning elapsed 0.0 without touching the network or sleeping); otherwise
dispatch on the attempt outcome: on success count the call, insert into
the cache while below capacity, sleep in slow mode, and return the data;
on a timeout return `(none, true)`; on any other failure `(none, false)`. -/
def makeApiRequest {α : Type} (cfg : HttpConfig) (st : HttpState α)
    (url : String) (useCache : Bool) (att : HttpAttempt α) :
    (Option α × Bool × Nat) × HttpState α × ReqEffects :=
  if cacheHit cfg st url useCache then
    ((cacheLookup st.cache url, false, 0),
     { st with cacheHits := st.cacheHits + 1 }, ⟨false, false⟩)
  else
    match att.event with
    | .ok data =>
      let st1 : HttpState α :=
        { st with apiCalls := st.apiCalls + 1 }
      let st2 : HttpState α :=
        if useCache && cfg.enableCache && st1.cache.length < cfg.cacheMaxSize
        then { st1 with cache := st1.cache ++ [(url, data)] }
        else st1
      ((some data, false, att.elapsed), st2, ⟨true, cfg.slowMode⟩)
    | .timeout => ((none, true, att.elapsed), st, ⟨true, false⟩)
    | .statusError => ((none, false, att.elapsed), st, ⟨true, false⟩)
    | .connectionError => ((none, false, att.elapsed), st, ⟨true, false⟩)
    | .decodeError => ((none, false, att.elapsed), st, ⟨true, false⟩)
    | .otherError => ((none, false, att.elapsed), st, ⟨true, false⟩)

/-- **C6.** The request operation (a total function: it never raises) is
classified exactly as: `(data, timedOut = false)` on success; `(null,
timedOut = true)` on a connect or read timeout; `(null, timedOut = false)`
for every other failure — a retry-exhausted status error, a connection
error, an undecodable JSON body, or any other exception.  A cache hit also
returns data with `timedOut = false`. -/
theorem request_classification {α : Type} (cfg : HttpConfig)
    (st : HttpState α) (url : String) (useCache : Bool) (att : HttpAttempt α) :
    (∀ d, att.event = ReqEvent.ok d → cacheHit cfg st url useCache = false →
      (makeApiRequest cfg st url useCache att).1 = (some d, false, att.elapsed)) ∧
    (att.event = ReqEvent.timeout → cacheHit cfg st url useCache = false →
      (makeApiRequest cfg st url useCache att).1 = (none, true, att.elapsed)) ∧
    ((att.event = ReqEvent.statusError ∨ att.event = ReqEvent.connectionError ∨
        att.event = ReqEvent.decodeError ∨ att.event = ReqEvent.otherError) →
      cacheHit cfg st url useCache = false →
      (makeApiRequest cfg st url useCache att).1 = (none, false, att.elapsed)) ∧
    (cacheHit cfg st url useCache = true →
      ∃ d, cacheLookup st.cache url = some d ∧
        (makeApiRequest cfg st url useCache att).1 = (some d, false, 0)) := by
  refine ⟨?_, ?_, ?_, ?_⟩
  · intro d hev hmiss
    unfold makeApiRequest
    rw [hmiss]
    simp only [Bool.false_eq_true, if_false, hev]
  · intro hev hmiss
    unfold makeApiRequest
    rw [hmiss]
    simp only [Bool.false_eq_true, if_false, hev]
  · intro hev hmiss
    unfold makeApiRequest
    rw [hmiss]
    rcases hev with h | h | h | h <;> simp only [Bool.false_eq_true, if_false, h]
  · intro hhit
    unfold makeApiRequest
    rw [hhit]
    have hsome : (cacheLookup st.cache url).isSome = true := by
      unfold cacheHit at hhit
      simp only [Bool.and_eq_true] at hhit
      exact hhit.2
    obtain ⟨d, hd⟩ := Option.isSome_iff_exists.mp hsome
    exact ⟨d, hd, by simp [hd]⟩

/-- Witness for C6 at concrete inputs. -/
theorem request_classification_witness :
    (makeApiRequest ⟨true, false, 10⟩ (⟨[], 0, 0⟩ : HttpState Nat) "u" true
      ⟨ReqEvent.decodeError, 3⟩).1 = (none, false, 3) :=
  (request_classification ⟨true, false, 10⟩ ⟨[], 0, 0⟩ "u" true
    ⟨ReqEvent.decodeError, 3⟩).2.2.1 (Or.inr (Or.inr (Or.inl rfl)))
    (by decide)

/-- **C9.** A request for a cached url with caching enabled returns the
cached object with `timedOut = false` and elapsed 0, increments only the
cache-hit counter, leaves the cache and the api-call counter unchanged,
performs no network fetch, and skips the slow-mode delay; and in general
the api-call counter increments exactly on calls that performed a network
fetch whose outcome was a decoded success. -/
theorem cache_hit_behavior {α : Type} (cfg : HttpConfig) (st : HttpState α)
    (url : String) (att : HttpAttempt α) (d : α)
    (hcache : cacheLookup st.cache url = some d)
    (hen : cfg.enableCache = true) :
    makeApiRequest cfg st url true att =
      ((some d, false, 0), { st with cacheHits := st.cacheHits + 1 },
        ⟨false, false⟩) ∧
    (∀ (uc : Bool) (st' : HttpState α) (att' : HttpAttempt α),
      (makeApiRequest cfg st' url uc att').2.1.apiCalls =
        st'.apiCalls +
          (if (makeApiRequest cfg st' url uc att').2.2.didFetch &&
              isOkEvent att'.event then 1 else 0)) := by
  constructor
  · have hhit : cacheHit cfg st url true = true := by
      unfold cacheHit
      simp [hen, hcache]
    unfold makeApiRequest
    rw [hhit, hcache]
    simp
  · intro uc st' att'
    unfold makeApiRequest
    by_cases hhit : cacheHit cfg st' url uc = true
    · rw [hhit]
      simp
    · rw [Bool.not_eq_true] at hhit
      rw [hhit]
      simp only [Bool.false_eq_true, if_false]
      cases hev : att'.event with
      | ok data =>
        simp only [isOkEvent]
        by_cases hins : (uc && cfg.enableCache &&
            st'.cache.length < cfg.cacheMaxSize) = true
        · rw [if_pos hins]; simp
        · rw [if_neg hins]; simp
      | timeout => simp [isOkEvent]
      | statusError => simp [isOkEvent]
      | connectionError => simp [isOkEvent]
      | decodeError => simp [isOkEvent]
      | otherError => simp [isOkEvent]

/-- Witness for C9 at concrete inputs. -/
theorem cache_hit_behavior_witness :
    makeApiRequest ⟨true, true, 4⟩ (⟨[("u", 9)], 2, 5⟩ : HttpState Nat)
      "u" true ⟨ReqEvent.timeout, 1⟩ =
      ((some 9, false, 0), ⟨[("u", 9)], 3, 5⟩, ⟨false, false⟩) :=
  (cache_hit_behavior ⟨true, true, 4⟩ ⟨[("u", 9)], 2, 5⟩ "u"
    ⟨ReqEvent.timeout, 1⟩ 9 (by decide) rfl).1

/-! ## Aggregated output (`Fetchers/__init__.py`)

The structured data is the two-level mapping project name → software-line
name → artifact list, modelled as association lists in insertion order.
An artifact keeps the fields these functions read: `artifact_rid` and
`component_type` (`none` models a missing key). -/

structure FArtifact where
  artifact_rid : String
  component_type : Option String
  payload : Nat
  deriving Repr, DecidableEq

structure FSwLine where
  rid : String
  artifacts : List FArtifact
  deriving Repr, DecidableEq

structure FProject where
  rid : String
  swLines : List (String × FSwLine)
  deriving Repr, DecidableEq

abbrev Structured := List (String × FProject)

/-- Decimal digit accumulator for `pyInt?`. -/
def digitsToNatAux : Nat → List Char → Option Nat
  | acc, [] => some acc
  | acc, c :: r =>
    if c.isDigit then digitsToNatAux (acc * 10 + (c.toNat - 48)) r else none

def digitsToNat : List Char → Option Nat
  | [] => none
  | cs => digitsToNatAux 0 cs

/-- Python `int(s)` on decimal strings: optional leading minus then
digits; `none` models the `ValueError` on anything else. -/
def pyInt? (s : String) : Option Int :=
  match s.data with
  | '-' :: rest => (digitsToNat rest).map (fun n => -(n : Int))
  | cs => (digitsToNat cs).map (fun n => (n : Int))

/-- `int(x['artifact_rid'])` on well-formed (integer-parsable) ids. -/
def ridInt (a : FArtifact) : Int :=
  (pyInt? a.artifact_rid).getD 0

/-- Python `max(xs, key=f)`: keep the current maximum, replacing it only
when a strictly greater key appears (the first maximum wins ties). -/
def pyMaxBy (f : FArtifact → Int) : FArtifact → List FArtifact → FArtifact
  | best, [] => best
  | best, x :: rest => pyMaxBy f (if f x > f best then x else best) rest

/-- `max(artifacts, key=lambda x: int(x['artifact_rid']))` when non-empty,
`None` when empty. -/
def latestOf (arts : List FArtifact) : Option FArtifact :=
  match arts with
  | [] => none
  | a :: rest => some (pyMaxBy ridInt a rest)

/-- One software-line entry of the latest output:
`(name, software_line_rid, latest_artifact)`. -/
abbrev LatestSw := String × String × Option FArtifact

/-- `extract_latest_artifacts`: for every project and software line keep
the keys and ids, and pair each software line with the latest artifact (or
`None` when the artifact list is empty). -/
def extract_latest_artifacts (dat : Structured) :
    List (String × String × List LatestSw) :=
  dat.map (fun p =>
    (p.1, p.2.rid, p.2.swLines.map (fun s => (s.1, s.2.rid, latestOf s.2.artifacts))))

theorem pyMaxBy_mem (f : FArtifact → Int) :
    ∀ (rest : List FArtifact) (best : FArtifact),
      pyMaxBy f best rest = best ∨ pyMaxBy f best rest ∈ rest
  | [], best => Or.inl rfl
  | x :: rest, best => by
    rw [pyMaxBy]
    by_cases h : f x > f best
    · rw [if_pos h]
      rcases pyMaxBy_mem f rest x with h' | h'
      · exact Or.inr (by rw [h']; simp)
      · exact Or.inr (List.mem_cons_of_mem x h')
    · rw [if_neg h]
      rcases pyMaxBy_mem f rest best with h' | h'
      · exact Or.inl h'
      · exact Or.inr (List.mem_cons_of_mem x h')

theorem pyMaxBy_le (f : FArtifact → Int) :
    ∀ (rest : List FArtifact) (best : FArtifact),
      f best ≤ f (pyMaxBy f best rest) ∧
        ∀ b ∈ rest, f b ≤ f (pyMaxBy f best rest)
  | [], best => ⟨le_refl _, by simp⟩
  | x :: rest, best => by
    rw [pyMaxBy]
    by_cases h : f x > f best
    · rw [if_pos h]
      obtain ⟨h1, h2⟩ := pyMaxBy_le f rest x
      refine ⟨le_trans (le_of_lt h) h1, ?_⟩
      intro b hb
      rcases List.mem_cons.mp hb with rfl | hb
      · exact h1
      · exact h2 b hb
    · rw [if_neg h]
      obtain ⟨h1, h2⟩ := pyMaxBy_le f rest best
      refine ⟨h1, ?_⟩
      intro b hb
      rcases List.mem_cons.mp hb with rfl | hb
      · exact le_trans (le_of_not_gt h) h1
      · exact h2 b hb

/-- **C3.** In the latest output, every software line of the input appears
(with its key and id); when its artifact list is non-empty the chosen
latest artifact belongs to the list and its integer-interpreted id is
maximal (≥ every other artifact's); when it is empty the latest artifact
is null and the software line still appears. -/
theorem latest_artifact_spec (dat : Structured) (pn : String) (pd : FProject)
    (sn : String) (sd : FSwLine) (hp : (pn, pd) ∈ dat)
    (hs : (sn, sd) ∈ pd.swLines) :
    ((pn, pd.rid, pd.swLines.map
        (fun s => (s.1, s.2.rid, latestOf s.2.artifacts)))
      ∈ extract_latest_artifacts dat ∧
     (sn, sd.rid, latestOf sd.artifacts) ∈
        pd.swLines.map (fun s => (s.1, s.2.rid, latestOf s.2.artifacts))) ∧
    (sd.artifacts = [] → latestOf sd.artifacts = none) ∧
    (sd.artifacts ≠ [] →
      ∃ a, latestOf sd.artifacts = some a ∧ a ∈ sd.artifacts ∧
        ∀ b ∈ sd.artifacts, ridInt b ≤ ridInt a) := by
  refine ⟨⟨?_, ?_⟩, ?_, ?_⟩
  · exact List.mem_map.mpr ⟨(pn, pd), hp, rfl⟩
  · exact List.mem_map.mpr ⟨(sn, sd), hs, rfl⟩
  · intro h; rw [h]; rfl
  · intro h
    cases harts : sd.artifacts with
    | nil => exact absurd harts h
    | cons a rest =>
      refine ⟨pyMaxBy ridInt a rest, by rw [latestOf], ?_, ?_⟩
      · rcases pyMaxBy_mem ridInt rest a with h' | h'
        · rw [h']; simp
        · exact List.mem_cons_of_mem a h'
      · intro b hb
        obtain ⟨h1, h2⟩ := pyMaxBy_le ridInt rest a
        rcases List.mem_cons.mp hb with rfl | hb
        · exact h1
        · exact h2 b hb

/-- Witness for C3: ids {"12", "101", "99"} yield latest id "101". -/
theorem latest_artifact_spec_witness :
    (⟨"101", some "t", 1⟩ : FArtifact) ∈
        [⟨"12", some "t", 0⟩, ⟨"101", some "t", 1⟩, (⟨"99", some "t", 2⟩ : FArtifact)] ∧
    latestOf [⟨"12", some "t", 0⟩, ⟨"101", some "t", 1⟩, ⟨"99", some "t", 2⟩] =
      some ⟨"101", some "t", 1⟩ ∧
    (∀ b ∈ [⟨"12", some "t", 0⟩, ⟨"101", some "t", 1⟩,
        (⟨"99", some "t", 2⟩ : FArtifact)],
      ridInt b ≤ ridInt ⟨"101", some "t", 1⟩) := by
  have h := latest_artifact_spec
    [("P", ⟨"7", [("S", ⟨"8", [⟨"12", some "t", 0⟩, ⟨"101", some "t", 1⟩,
      ⟨"99", some "t", 2⟩]⟩)]⟩)]
    "P" ⟨"7", [("S", ⟨"8", [⟨"12", some "t", 0⟩, ⟨"101", some "t", 1⟩,
      ⟨"99", some "t", 2⟩]⟩)]⟩
    "S" ⟨"8", [⟨"12", some "t", 0⟩, ⟨"101", some "t", 1⟩, ⟨"99", some "t", 2⟩]⟩
    (by simp) (by simp)
  obtain ⟨-, -, h3⟩ := h
  obtain ⟨a, ha, hmem, hmax⟩ := h3 (by simp)
  have haeq : a = ⟨"101", some "t", 1⟩ := by
    have : latestOf [⟨"12", some "t", 0⟩, ⟨"101", some "t", 1⟩,
        ⟨"99", some "t", 2⟩] = some (⟨"101", some "t", 1⟩ : FArtifact) := by decide
    rw [this] at ha
    exact (Option.some.injEq _ _ ▸ ha).symm
  subst haeq
  exact ⟨by simp, ha, hmax⟩

/-! ## Per-component partitioning (`separate_by_component_type`) -/

/-- `artifact.get('component_type', 'unknown')`. -/
def compTypeOf (a : FArtifact) : String :=
  a.component_type.getD "unknown"

/-- One software-line partition: `(software_line_rid, artifacts)`. -/
abbrev SwPart := String × List FArtifact

/-- One project partition: `(project_rid, software lines)`. -/
abbrev ProjPart := String × List (String × SwPart)

abbrev ByComp := List (String × List (String × ProjPart))

/-- Python `dict` setdefault: add the key with an initial value only when
absent (at the end, preserving insertion order). -/
def setdefault {β : Type} (k : String) (v : β) (l : List (String × β)) :
    List (String × β) :=
  if (l.find? (fun p => p.1 = k)).isSome then l else l ++ [(k, v)]

/-- Update the value at a key in place. -/
def modifyAt {β : Type} (k : String) (f : β → β) (l : List (String × β)) :
    List (String × β) :=
  l.map (fun p => if p.1 = k then (p.1, f p.2) else p)

/-- The body of the innermost loop of `separate_by_component_type`: ensure
the component-type, project and software-line levels exist, then append
the artifact. -/
def insertArtifact (acc : ByComp) (t pn prid sn srid : String)
    (a : FArtifact) : ByComp :=
  modifyAt t
    (fun projs =>
      modifyAt pn
        (fun pj =>
          (pj.1,
            modifyAt sn (fun sw => (sw.1, sw.2 ++ [a]))
              (setdefault sn (srid, []) pj.2)))
        (setdefault pn (prid, []) projs))
    (setdefault t [] acc)

/-- `separate_by_component_type`: fold the triple loop over projects,
software lines and artifacts, grouping by `component_type` (defaulting to
"unknown"). -/
def separate_by_component_type (dat : Structured) : ByComp :=
  dat.foldl
    (fun acc p =>
      p.2.swLines.foldl
        (fun acc s =>
          s.2.artifacts.foldl
            (fun acc a => insertArtifact acc (compTypeOf a) p.1 p.2.rid s.1 s.2.rid a)
            acc)
        acc)
    []

/-- Dictionary access: the value stored at a key. -/
def valAt {β : Type} (l : List (String × β)) (k : String) : Option β :=
  (l.find? (fun p => p.1 = k)).map (·.2)

/-- A software line appears under a project under a component type. -/
def containsSw (bc : ByComp) (t pn sn : String) : Bool :=
  match valAt bc t with
  | none => false
  | some projs =>
    match valAt projs pn with
    | none => false
    | some pj => (valAt pj.2 sn).isSome

/-- A project appears under a component type. -/
def containsProj (bc : ByComp) (t pn : String) : Bool :=
  match valAt bc t with
  | none => false
  | some projs => (valAt projs pn).isSome

theorem valAt_setdefault_self {β : Type} (k : String) (v : β)
    (l : List (String × β)) :
    valAt (setdefault k v l) k = some ((valAt l k).getD v) := by
  unfold setdefault
  cases hf : l.find? (fun p => p.1 = k) with
  | some p =>
    have hc : (some p).isSome = true := rfl
    rw [if_pos hc]
    unfold valAt
    rw [hf]
    rfl
  | none =>
    have hc : ¬((none : Option (String × β)).isSome = true) := by simp
    rw [if_neg hc]
    unfold valAt
    rw [List.find?_append, hf]
    simp

theorem valAt_setdefault_other {β : Type} (k k' : String) (hne : k' ≠ k)
    (v : β) (l : List (String × β)) :
    valAt (setdefault k v l) k' = valAt l k' := by
  unfold setdefault valAt
  split
  · rfl
  · rw [List.find?_append]
    cases hf : l.find? (fun p => p.1 = k') with
    | some p => simp
    | none => simp [List.find?_cons, show ¬(k = k') from fun h => hne h.symm]

theorem valAt_modifyAt_self {β : Type} (k : String) (f : β → β) :
    ∀ l : List (String × β), valAt (modifyAt k f l) k = (valAt l k).map f := by
  intro l
  induction l with
  | nil => rfl
  | cons q rest ih =>
    unfold valAt modifyAt at ih ⊢
    by_cases hq : q.1 = k
    · simp [List.find?_cons, hq]
    · simp only [List.map_cons, if_neg hq]
      rw [List.find?_cons_of_neg _ (by simp [hq]),
        List.find?_cons_of_neg _ (by simp [hq])]
      exact ih

theorem valAt_modifyAt_other {β : Type} (k k' : String) (hne : k' ≠ k)
    (f : β → β) : ∀ l : List (String × β),
      valAt (modifyAt k f l) k' = valAt l k' := by
  intro l
  induction l with
  | nil => rfl
  | cons q rest ih =>
    unfold valAt modifyAt at ih ⊢
    by_cases hq : q.1 = k
    · have hq' : ¬(q.1 = k') := by rw [hq]; exact fun h => hne h.symm
      simp only [List.map_cons, if_pos hq]
      rw [List.find?_cons_of_neg _ (by simp [hq']),
        List.find?_cons_of_neg _ (by simp [hq'])]
      exact ih
    · simp only [List.map_cons, if_neg hq]
      by_cases hq' : q.1 = k'
      · rw [List.find?_cons_of_pos _ (by simp [hq']),
          List.find?_cons_of_pos _ (by simp [hq'])]
      · rw [List.find?_cons_of_neg _ (by simp [hq']),
          List.find?_cons_of_neg _ (by simp [hq'])]
        exact ih

theorem containsSw_insert (acc : ByComp) (t' pn' prid sn' srid : String)
    (a : FArtifact) (t pn sn : String) :
    containsSw (insertArtifact acc t' pn' prid sn' srid a) t pn sn =
      (containsSw acc t pn sn ||
        (decide (t = t') && decide (pn = pn') && decide (sn = sn'))) := by
  unfold insertArtifact containsSw
  by_cases ht : t = t'
  · subst ht
    rw [valAt_modifyAt_self, valAt_setdefault_self]
    simp only [Option.map_some']
    by_cases hp : pn = pn'
    · subst hp
      rw [valAt_modifyAt_self, valAt_setdefault_self]
      simp only [Option.map_some']
      by_cases hs : sn = sn'
      · subst hs
        rw [valAt_modifyAt_self, valAt_setdefault_self]
        simp only [Option.map_some', Option.isSome_some]
        cases hacc : valAt acc t with
        | none => simp
        | some projs =>
          cases hpj : valAt projs pn with
          | none => simp
          | some pj => simp
      · rw [valAt_modifyAt_other _ _ hs, valAt_setdefault_other _ _ hs]
        cases hacc : valAt acc t with
        | none => simp [hs, valAt]
        | some projs =>
          simp only [Option.getD_some]
          cases hpj : valAt projs pn with
          | none => simp [hs, valAt]
          | some pj => simp [hs]
    · rw [valAt_modifyAt_other _ _ hp, valAt_setdefault_other _ _ hp]
      cases hacc : valAt acc t with
      | none => simp [hp, valAt]
      | some projs =>
        cases hpj : valAt projs pn with
        | none => simp [hp, hpj]
        | some pj => simp [hp, hpj]
  · rw [valAt_modifyAt_other _ _ ht, valAt_setdefault_other _ _ ht]
    cases hacc : valAt acc t with
    | none => simp [ht]
    | some projs =>
      cases hpj : valAt projs pn with
      | none => simp [ht, hpj]
      | some pj => simp [ht, hpj]

theorem containsProj_insert (acc : ByComp) (t' pn' prid sn' srid : String)
    (a : FArtifact) (t pn : String) :
    containsProj (insertArtifact acc t' pn' prid sn' srid a) t pn =
      (containsProj acc t pn || (decide (t = t') && decide (pn = pn'))) := by
  unfold insertArtifact containsProj
  by_cases ht : t = t'
  · subst ht
    rw [valAt_modifyAt_self, valAt_setdefault_self]
    simp only [Option.map_some']
    by_cases hp : pn = pn'
    · subst hp
      rw [valAt_modifyAt_self, valAt_setdefault_self]
      simp only [Option.map_some', Option.isSome_some]
      cases hacc : valAt acc t with
      | none => simp
      | some projs => simp
    · rw [valAt_modifyAt_other _ _ hp, valAt_setdefault_other _ _ hp]
      cases hacc : valAt acc t with
      | none => simp [hp, valAt]
      | some projs => simp [hp]
  · rw [valAt_modifyAt_other _ _ ht, valAt_setdefault_other _ _ ht]
    cases hacc : valAt acc t with
    | none => simp [ht]
    | some projs => simp [ht]

theorem containsSw_foldArts (pn' prid sn' srid t pn sn : String) :
    ∀ (arts : List FArtifact) (acc : ByComp),
      containsSw (arts.foldl (fun acc a =>
          insertArtifact acc (compTypeOf a) pn' prid sn' srid a) acc) t pn sn =
        (containsSw acc t pn sn ||
          (decide (pn = pn') && decide (sn = sn') &&
            arts.any (fun a => decide (t = compTypeOf a))))
  | [], acc => by simp
  | a :: arts, acc => by
    rw [List.foldl_cons, containsSw_foldArts pn' prid sn' srid t pn sn arts _,
      containsSw_insert]
    by_cases h1 : pn = pn' <;> by_cases h2 : sn = sn' <;>
      simp [h1, h2, Bool.or_assoc]

theorem containsSw_foldSws (pn' prid t pn sn : String) :
    ∀ (sws : List (String × FSwLine)) (acc : ByComp),
      containsSw (sws.foldl (fun acc s => s.2.artifacts.foldl
          (fun acc a => insertArtifact acc (compTypeOf a) pn' prid s.1 s.2.rid a)
          acc) acc) t pn sn =
        (containsSw acc t pn sn ||
          (decide (pn = pn') && sws.any (fun s => decide (sn = s.1) &&
            s.2.artifacts.any (fun a => decide (t = compTypeOf a)))))
  | [], acc => by simp
  | s :: sws, acc => by
    rw [List.foldl_cons, containsSw_foldSws pn' prid t pn sn sws _,
      containsSw_foldArts pn' prid s.1 s.2.rid t pn sn]
    by_cases h1 : pn = pn' <;> by_cases h2 : sn = s.1 <;>
      simp [h1, h2, Bool.or_assoc, Bool.and_or_distrib_left]

theorem containsSw_foldProjs (t pn sn : String) :
    ∀ (dat : Structured) (acc : ByComp),
      containsSw (dat.foldl (fun acc p => p.2.swLines.foldl
          (fun acc s => s.2.artifacts.foldl
            (fun acc a =>
              insertArtifact acc (compTypeOf a) p.1 p.2.rid s.1 s.2.rid a)
            acc) acc) acc) t pn sn =
        (containsSw acc t pn sn ||
          dat.any (fun p => decide (pn = p.1) && p.2.swLines.any
            (fun s => decide (sn = s.1) &&
              s.2.artifacts.any (fun a => decide (t = compTypeOf a)))))
  | [], acc => by simp
  | p :: dat, acc => by
    rw [List.foldl_cons, containsSw_foldProjs t pn sn dat _,
      containsSw_foldSws p.1 p.2.rid t pn sn]
    by_cases h1 : pn = p.1 <;>
      simp [h1, Bool.or_assoc, Bool.and_or_distrib_left]

theorem containsProj_foldArts (pn' prid sn' srid t pn : String) :
    ∀ (arts : List FArtifact) (acc : ByComp),
      containsProj (arts.foldl (fun acc a =>
          insertArtifact acc (compTypeOf a) pn' prid sn' srid a) acc) t pn =
        (containsProj acc t pn ||
          (decide (pn = pn') && arts.any (fun a => decide (t = compTypeOf a))))
  | [], acc => by simp
  | a :: arts, acc => by
    rw [List.foldl_cons, containsProj_foldArts pn' prid sn' srid t pn arts _,
      containsProj_insert]
    by_cases h1 : pn = pn' <;> simp [h1, Bool.or_assoc]

theorem containsProj_foldSws (pn' prid t pn : String) :
    ∀ (sws : List (String × FSwLine)) (acc : ByComp),
      containsProj (sws.foldl (fun acc s => s.2.artifacts.foldl
          (fun acc a => insertArtifact acc (compTypeOf a) pn' prid s.1 s.2.rid a)
          acc) acc) t pn =
        (containsProj acc t pn ||
          (decide (pn = pn') && sws.any (fun s =>
            s.2.artifacts.any (fun a => decide (t = compTypeOf a)))))
  | [], acc => by simp
  | s :: sws, acc => by
    rw [List.foldl_cons, containsProj_foldSws pn' prid t pn sws _,
      containsProj_foldArts pn' prid s.1 s.2.rid t pn]
    by_cases h1 : pn = pn' <;>
      simp [h1, Bool.or_assoc, Bool.and_or_distrib_left]

theorem containsProj_foldProjs (t pn : String) :
    ∀ (dat : Structured) (acc : ByComp),
      containsProj (dat.foldl (fun acc p => p.2.swLines.foldl
          (fun acc s => s.2.artifacts.foldl
            (fun acc a =>
              insertArtifact acc (compTypeOf a) p.1 p.2.rid s.1 s.2.rid a)
            acc) acc) acc) t pn =
        (containsProj acc t pn ||
          dat.any (fun p => decide (pn = p.1) && p.2.swLines.any
            (fun s => s.2.artifacts.any (fun a => decide (t = compTypeOf a)))))
  | [], acc => by simp
  | p :: dat, acc => by
    rw [List.foldl_cons, containsProj_foldProjs t pn dat _,
      containsProj_foldSws p.1 p.2.rid t pn]
    by_cases h1 : pn = p.1 <;>
      simp [h1, Bool.or_assoc, Bool.and_or_distrib_left]

theorem assoc_unique {β : Type} :
    ∀ {l : List (String × β)} {k : String} {v v' : β},
      (l.map Prod.fst).Nodup → (k, v) ∈ l → (k, v') ∈ l → v = v' := by
  intro l
  induction l with
  | nil => intro k v v' _ h; simp at h
  | cons q rest ih =>
    intro k v v' hnd h1 h2
    rw [List.map_cons, List.nodup_cons] at hnd
    rcases List.mem_cons.mp h1 with h1e | h1m
    · rcases List.mem_cons.mp h2 with h2e | h2m
      · rw [← h1e] at h2e
        injection h2e with _ hv
        exact hv.symm
      · have hk : k ∈ rest.map Prod.fst := List.mem_map.mpr ⟨(k, v'), h2m, rfl⟩
        rw [← h1e] at hnd
        exact absurd hk hnd.1
    · rcases List.mem_cons.mp h2 with h2e | h2m
      · have hk : k ∈ rest.map Prod.fst := List.mem_map.mpr ⟨(k, v), h1m, rfl⟩
        rw [← h2e] at hnd
        exact absurd hk hnd.1
      · exact ih hnd.2 h1m h2m

/-- **C10.** A software line (or project) appears in the partition of a
component type exactly when it holds at least one artifact of that
component type (the type of an artifact defaulting to "unknown"); in
particular, under the dictionary key-uniqueness of the input, a software
line with an empty artifact list — which is present as such in the
unpartitioned aggregated input — is absent from every partition. -/
theorem partition_membership (dat : Structured) (t pn sn : String) :
    (containsSw (separate_by_component_type dat) t pn sn = true ↔
      ∃ pd sd a, (pn, pd) ∈ dat ∧ (sn, sd) ∈ pd.swLines ∧
        a ∈ sd.artifacts ∧ compTypeOf a = t) ∧
    (containsProj (separate_by_component_type dat) t pn = true ↔
      ∃ pd sw sd a, (pn, pd) ∈ dat ∧ (sw, sd) ∈ pd.swLines ∧
        a ∈ sd.artifacts ∧ compTypeOf a = t) ∧
    (∀ pd sd, (dat.map Prod.fst).Nodup → (pd.swLines.map Prod.fst).Nodup →
      (pn, pd) ∈ dat → (sn, sd) ∈ pd.swLines → sd.artifacts = [] →
      containsSw (separate_by_component_type dat) t pn sn = false) := by
  have hsw : containsSw (separate_by_component_type dat) t pn sn = true ↔
      ∃ pd sd a, (pn, pd) ∈ dat ∧ (sn, sd) ∈ pd.swLines ∧
        a ∈ sd.artifacts ∧ compTypeOf a = t := by
    unfold separate_by_component_type
    rw [containsSw_foldProjs]
    rw [show containsSw [] t pn sn = false from rfl, Bool.false_or]
    simp only [List.any_eq_true, Bool.and_eq_true, decide_eq_true_eq]
    constructor
    · rintro ⟨p, hp, rfl, s, hs, rfl, a, ha, rfl⟩
      exact ⟨p.2, s.2, a, by simpa using hp, by simpa using hs, ha, rfl⟩
    · rintro ⟨pd, sd, a, hp, hs, ha, rfl⟩
      exact ⟨(pn, pd), hp, rfl, (sn, sd), hs, rfl, a, ha, rfl⟩
  refine ⟨hsw, ?_, ?_⟩
  · unfold separate_by_component_type
    rw [containsProj_foldProjs]
    rw [show containsProj [] t pn = false from rfl, Bool.false_or]
    simp only [List.any_eq_true, Bool.and_eq_true, decide_eq_true_eq]
    constructor
    · rintro ⟨p, hp, rfl, s, hs, a, ha, rfl⟩
      exact ⟨p.2, s.1, s.2, a, by simpa using hp, by simpa using hs, ha, rfl⟩
    · rintro ⟨pd, sw, sd, a, hp, hs, ha, rfl⟩
      exact ⟨(pn, pd), hp, rfl, (sw, sd), hs, a, ha, rfl⟩
  · intro pd sd hnd1 hnd2 hp hs hempty
    rw [Bool.eq_false_iff]
    intro htrue
    obtain ⟨pd', sd', a, hp', hs', ha, _⟩ := hsw.mp htrue
    obtain rfl : pd = pd' := assoc_unique hnd1 hp hp'
    obtain rfl : sd = sd' := assoc_unique hnd2 hs hs'
    rw [hempty] at ha
    exact absurd ha (List.not_mem_nil a)

/-- Witness for C10 at concrete inputs: the partition for type "m" holds
the software line with an "m" artifact, the software line with no
artifacts is in no partition. -/
theorem partition_membership_witness :
    containsSw (separate_by_component_type
      [("P", ⟨"1", [("S", ⟨"2", [⟨"9", some "m", 0⟩]⟩), ("E", ⟨"3", []⟩)]⟩)])
      "m" "P" "S" = true ∧
    containsSw (separate_by_component_type
      [("P", ⟨"1", [("S", ⟨"2", [⟨"9", some "m", 0⟩]⟩), ("E", ⟨"3", []⟩)]⟩)])
      "m" "P" "E" = false := by
  constructor
  · exact (partition_membership
      [("P", ⟨"1", [("S", ⟨"2", [⟨"9", some "m", 0⟩]⟩), ("E", ⟨"3", []⟩)]⟩)]
      "m" "P" "S").1.mpr
      ⟨⟨"1", [("S", ⟨"2", [⟨"9", some "m", 0⟩]⟩), ("E", ⟨"3", []⟩)]⟩,
        ⟨"2", [⟨"9", some "m", 0⟩]⟩, ⟨"9", some "m", 0⟩,
        by simp, by simp, by simp, by decide⟩
  · exact (partition_membership
      [("P", ⟨"1", [("S", ⟨"2", [⟨"9", some "m", 0⟩]⟩), ("E", ⟨"3", []⟩)]⟩)]
      "m" "P" "E").2.2
      ⟨"1", [("S", ⟨"2", [⟨"9", some "m", 0⟩]⟩), ("E", ⟨"3", []⟩)]⟩
      ⟨"3", []⟩ (by decide) (by decide) (by simp) (by simp) rfl

/-- Witness for C2 at a concrete input: a deletion date one hundred ticks
in the future is not a deletion. -/
theorem deletion_semantics_witness :
    isArtifactDeleted pyInt? 100
      [⟨some "tisFileDeletedDate", some "200"⟩] = false :=
  (deletion_semantics pyInt? 100
    ⟨none, none, none, none, none, [⟨some "tisFileDeletedDate", some "200"⟩]⟩).2.1
    "200" (by decide)
    (Or.inr (fun t ht => by
      rw [show pyInt? "200" = some 200 from by decide] at ht
      injection ht with h
      omega))

/-! ## Test-configuration cross-check (`Validators/__init__.py`)

`PathValidator.validate_test_config_software_line` and its helpers.  The
deviation enumeration is the closed set used by the validators (the
fetcher's `Models` module defining it is referenced by the validator
source; the member names appear in the validator itself).  The detail and
hint strings of the returned triple are elided; only the tag is
modelled. -/

inductive DeviationType where
  | VALID
  | MISSING_MODEL
  | MISSING_HIL
  | MISSING_SIL
  | MISSING_CSP_SWB
  | CSP_SWB_UNDER_MODEL
  | WRONG_LOCATION
  | INVALID_SUBFOLDER
  | INVALID_NAME_FORMAT
  | NAME_MISMATCH
  | TEST_TYPE_MISMATCH
  | TEST_CONFIG_SW_LINE_MISMATCH
  deriving Repr, DecidableEq

def isSep (c : Char) : Bool := c = '/' || c = '\\'

/-- The tail of `[/\\]?P(\d{4})[/\\]` at one position: a literal `P`, four
digits, then a path separator. -/
def p4sep : List Char → Option (List Char)
  | 'P' :: d1 :: d2 :: d3 :: d4 :: s :: _ =>
    if d1.isDigit && d2.isDigit && d3.isDigit && d4.isDigit && isSep s then
      some [d1, d2, d3, d4]
    else none
  | _ => none

/-- `re.search(r'[/\\]?P(\d{4})[/\\]', s)`: scan start positions left to
right; at a position starting with a separator the optional separator must
be consumed (a bare `P` cannot match there). -/
def search1 : List Char → Option (List Char)
  | [] => none
  | c :: rest =>
    ((if isSep c then p4sep rest else p4sep (c :: rest))).orElse
      (fun _ => search1 rest)

/-- `P(\d{4})(?:[/\\]|$)` at one position. -/
def p4end : List Char → Option (List Char)
  | 'P' :: d1 :: d2 :: d3 :: d4 :: rest =>
    if d1.isDigit && d2.isDigit && d3.isDigit && d4.isDigit &&
        (rest.isEmpty || isSep (rest.headD ' ')) then
      some [d1, d2, d3, d4]
    else none
  | _ => none

def search2 : List Char → Option (List Char)
  | [] => none
  | c :: rest => (p4end (c :: rest)).orElse (fun _ => search2 rest)

/-- `_extract_p_number_from_config`: the first regex, then the fallback
without a trailing separator. -/
def extractPNumber (s : String) : Option String :=
  if s = "" then none
  else
    match search1 s.data with
    | some ds => some (String.mk ds)
    | none => (search2 s.data).map String.mk

/-- Remainder after the first `)` (the end of a `\([^)]*\)` match). -/
def afterClose : List Char → Option (List Char)
  | [] => none
  | c :: r => if c = ')' then some r else afterClose r

theorem afterClose_length :
    ∀ (l : List Char) (r : List Char), afterClose l = some r →
      r.length < l.length
  | [], r, h => by simp [afterClose] at h
  | c :: l, r, h => by
    rw [afterClose] at h
    by_cases hc : c = ')'
    · rw [if_pos hc] at h
      injection h with h
      subst h
      simp
    · rw [if_neg hc] at h
      exact Nat.lt_trans (afterClose_length l r h) (by simp)

/-- Fuelled body of `stripParens` (the fuel, at least the input length,
only bounds the recursion: each step strictly shortens the list). -/
def stripParensFuel : Nat → List Char → List Char
  | 0, l => l
  | _ + 1, [] => []
  | n + 1, c :: rest =>
    if c = '(' then
      match afterClose rest with
      | some r => stripParensFuel n r
      | none => c :: stripParensFuel n rest
    else c :: stripParensFuel n rest

/-- `re.sub(r'\([^)]*\)', '', s)`: drop every parenthesized group (up to
the next closing parenthesis); an unmatched `(` is kept. -/
def stripParens (l : List Char) : List Char :=
  stripParensFuel l.length l

/-- `_extract_sw_line_digits`: strip parenthesized content, take the prefix
before `_`, keep alphanumerics, then the last four digits (none when fewer
than four digits remain). -/
def extractSwLineDigits (s : String) : Option String :=
  if s = "" then none
  else
    let cleaned1 := stripParens s.data
    let cleaned2 :=
      if cleaned1.contains '_' then cleaned1.takeWhile (fun c => c ≠ '_')
      else cleaned1
    let cleaned3 := cleaned2.filter Char.isAlphanum
    let digits := cleaned3.filter Char.isDigit
    if digits.length ≥ 4 then
      some (String.mk (digits.drop (digits.length - 4)))
    else none

/-- Python `a or b` on optional strings (an empty string is falsy). -/
def pyOrStr : Option String → Option String → Option String
  | some s, b => if s ≠ "" then some s else b
  | none, b => b

/-- `validate_test_config_software_line`: only `test_ECU-TEST` components
are checked; the configuration path is `testConfiguration or
testbenchConfiguration`; a missing path, P-number or software-line digit
group is VALID; differing values are the mismatch. -/
def validateTestConfigSwLine (componentName : String)
    (tc tb : Option String) (swLine : String) : DeviationType :=
  if componentName ≠ "test_ECU-TEST" then .VALID
  else
    match pyOrStr tc tb with
    | none => .VALID
    | some cp =>
      if cp = "" then .VALID
      else
        match extractPNumber cp with
        | none => .VALID
        | some p =>
          match extractSwLineDigits swLine with
          | none => .VALID
          | some d => if p ≠ d then .TEST_CONFIG_SW_LINE_MISMATCH else .VALID

/-- **C8.** For a test artifact (`test_ECU-TEST`): the validation returns
TEST_CONFIG_SW_LINE_MISMATCH exactly when the configuration path (the
testConfiguration, else the testbenchConfiguration) yields a 4-digit
P-number, the cleaned software-line name yields its trailing 4 digits, and
the two differ; whenever either value is missing the result is VALID; and
non-test components are always VALID. -/
theorem test_config_cross_check (tc tb : Option String) (sw : String) :
    (validateTestConfigSwLine "test_ECU-TEST" tc tb sw =
        DeviationType.TEST_CONFIG_SW_LINE_MISMATCH ↔
      ∃ cp p d, pyOrStr tc tb = some cp ∧ extractPNumber cp = some p ∧
        extractSwLineDigits sw = some d ∧ p ≠ d) ∧
    (∀ cp, pyOrStr tc tb = some cp → extractPNumber cp = none →
      validateTestConfigSwLine "test_ECU-TEST" tc tb sw = DeviationType.VALID) ∧
    (extractSwLineDigits sw = none →
      validateTestConfigSwLine "test_ECU-TEST" tc tb sw = DeviationType.VALID) ∧
    (∀ cn, cn ≠ "test_ECU-TEST" →
      validateTestConfigSwLine cn tc tb sw = DeviationType.VALID) := by
  refine ⟨?_, ?_, ?_, ?_⟩
  · unfold validateTestConfigSwLine
    rw [if_neg (by simp)]
    cases hor : pyOrStr tc tb with
    | none => simp
    | some cp =>
      dsimp only
      by_cases hcp : cp = ""
      · subst hcp
        rw [if_pos rfl]
        constructor
        · intro h; exact absurd h (by simp)
        · rintro ⟨cp', p, d, hcp', hp, -, -⟩
          injection hcp' with h
          subst h
          rw [show extractPNumber "" = none from rfl] at hp
          exact Option.noConfusion hp
      · rw [if_neg hcp]
        cases hp : extractPNumber cp with
        | none =>
          constructor
          · intro h; exact absurd h (by simp)
          · rintro ⟨cp', p, d, hcp', hp', -, -⟩
            injection hcp' with h
            subst h
            rw [hp] at hp'
            exact Option.noConfusion hp'
        | some p =>
          dsimp only
          cases hd : extractSwLineDigits sw with
          | none =>
            constructor
            · intro h; exact absurd h (by simp)
            · rintro ⟨cp', p', d, hcp', -, hd', -⟩
              exact Option.noConfusion hd'
          | some d =>
            dsimp only
            by_cases hne : p ≠ d
            · rw [if_pos hne]
              exact ⟨fun _ => ⟨cp, p, d, rfl, hp, rfl, hne⟩, fun _ => rfl⟩
            · rw [if_neg hne]
              constructor
              · intro h; exact absurd h (by simp)
              · rintro ⟨cp', p', d', hcp', hp', hd', hne'⟩
                injection hcp' with h
                subst h
                rw [hp] at hp'
                injection hp' with h1
                injection hd' with h2
                subst h1; subst h2
                exact absurd hne' hne
  · intro cp hor hnone
    unfold validateTestConfigSwLine
    rw [if_neg (by simp), hor]
    dsimp only
    by_cases hcp : cp = ""
    · rw [if_pos hcp]
    · rw [if_neg hcp, hnone]
  · intro hd
    unfold validateTestConfigSwLine
    rw [if_neg (by simp)]
    cases hor : pyOrStr tc tb with
    | none => rfl
    | some cp =>
      dsimp only
      by_cases hcp : cp = ""
      · rw [if_pos hcp]
      · rw [if_neg hcp]
        cases hp : extractPNumber cp with
        | none => rfl
        | some p => rw [hd]
  · intro cn hcn
    unfold validateTestConfigSwLine
    rw [if_pos hcn]

/-- Witness for C8: P2405 in the configuration path against software line
"P2406_ABC" is a mismatch. -/
theorem test_config_cross_check_witness :
    validateTestConfigSwLine "test_ECU-TEST" (some "Configs/P2405/x.tbc")
      none "P2406_ABC" = DeviationType.TEST_CONFIG_SW_LINE_MISMATCH :=
  (test_config_cross_check (some "Configs/P2405/x.tbc") none "P2406_ABC").1.mpr
    ⟨"Configs/P2405/x.tbc", "2405", "2406", by decide, by decide, by decide,
      by decide⟩

/-! ## VeMoX version parsing (`version_parser.py`)

`VersionParser.find_vemox_versions` and its helpers, over already-parsed
`sources` data: a list of items, each with a `type`, a list of SVN
externals (`path`/`url`) and a CONAN `package` string; a missing
dictionary key is `none`.  Python string order (comparison by code
points) is modelled by `pyStrLe`, and `sorted` on the deduplicated
version set by an insertion sort, whose output — being ordered and
duplicate-free over distinct strings — coincides with Python's. -/

structure SvnExternal where
  path : Option String
  url : Option String
  deriving Repr, DecidableEq

structure SourceItem where
  itemType : Option String
  externals : List SvnExternal
  package : Option String
  deriving Repr, DecidableEq

def pyLower (s : String) : String := ⟨s.data.map Char.toLower⟩

def pyUpper (s : String) : String := ⟨s.data.map Char.toUpper⟩

/-- `.replace('\\', '/')`. -/
def replaceBackslash (s : String) : String :=
  ⟨s.data.map (fun c => if c = '\\' then '/' else c)⟩

/-- Python `str.endswith`. -/
def pyEndsWith (s suffix : String) : Bool :=
  suffix.data.isSuffixOf s.data

/-- Python `str.split('/')`. -/
def splitSlash : List Char → List (List Char)
  | [] => [[]]
  | c :: rest =>
    if c = '/' then [] :: splitSlash rest
    else
      match splitSlash rest with
      | [] => [[c]]
      | p :: ps => (c :: p) :: ps

/-- Python `str.split('.')`. -/
def splitDot : List Char → List (List Char)
  | [] => [[]]
  | c :: rest =>
    if c = '.' then [] :: splitDot rest
    else
      match splitDot rest with
      | [] => [[c]]
      | p :: ps => (c :: p) :: ps

/-- Case-insensitive match of the literal `vemox`, returning the rest. -/
def vemoxPrefix : List Char → Option (List Char)
  | v :: e :: m :: o :: x :: rest =>
    if v.toLower = 'v' && e.toLower = 'e' && m.toLower = 'm' &&
        o.toLower = 'o' && x.toLower = 'x' then some rest
    else none
  | _ => none

/-- Greedy digit run: `(\d*, rest)` (the structural analogue of
`List.span Char.isDigit`, kept recursive for reducibility). -/
def spanDigits : List Char → List Char × List Char
  | [] => ([], [])
  | c :: rest =>
    if c.isDigit then
      match spanDigits rest with
      | (run, r) => (c :: run, r)
    else ([], c :: rest)

/-- `\.(\d+)`: a dot followed by a greedy non-empty digit run. -/
def matchDotRun : List Char → Option (List Char × List Char)
  | '.' :: rest =>
    match spanDigits rest with
    | (run, rest') => if run.isEmpty then none else some (run, rest')
  | _ => none

/-- `(\d+)\.(\d+)\.(\d+)\.(\d+)\.(\d+)` at one position: five greedy digit
runs separated by dots (deterministic: a maximal digit run can never
donate a digit to the following literal dot). -/
def digitsPattern (l : List Char) :
    Option (List Char × List Char × List Char × List Char × List Char) :=
  match spanDigits l with
  | (g1, r1) =>
    if g1.isEmpty then none
    else
      match matchDotRun r1 with
      | none => none
      | some (g2, r2) =>
        match matchDotRun r2 with
        | none => none
        | some (g3, r3) =>
          match matchDotRun r3 with
          | none => none
          | some (g4, r4) =>
            match matchDotRun r4 with
            | none => none
            | some (g5, _) => some (g1, g2, g3, g4, g5)

/-- `vemox(\d+)\.(\d+)\.(\d+)\.(\d+)\.(\d+)` (ignoring case) at one
position. -/
def vemoxNumAt (l : List Char) :
    Option (List Char × List Char × List Char × List Char × List Char) :=
  match vemoxPrefix l with
  | none => none
  | some r0 => digitsPattern r0

/-- `re.search` of the numeric vemox pattern: leftmost start position. -/
def searchVemoxNum : List Char → Option (List Char × List Char × List Char × List Char × List Char)
  | [] => none
  | c :: rest => (vemoxNumAt (c :: rest)).orElse (fun _ => searchVemoxNum rest)

/-- `(?:vemox)?` then the numeric pattern at one position (when the
optional prefix matches but the digits fail, the empty alternative cannot
start with a digit either, so the position fails). -/
def optVemoxNumAt (l : List Char) :
    Option (List Char × List Char × List Char × List Char × List Char) :=
  match vemoxPrefix l with
  | some r0 => digitsPattern r0
  | none => digitsPattern l

def searchOptVemoxNum : List Char → Option (List Char × List Char × List Char × List Char × List Char)
  | [] => none
  | c :: rest => (optVemoxNumAt (c :: rest)).orElse (fun _ => searchOptVemoxNum rest)

/-- `re.match(r'^vemox(?![._]).+', part, re.IGNORECASE)`. -/
def vemoxGeneralPattern (l : List Char) : Bool :=
  match vemoxPrefix l with
  | none => false
  | some [] => false
  | some (c :: _) => !(c = '.' || c = '_')

/-- `f"VeMox{g1}{g2}{g3}R{g4}{g5}"`. -/
def formatGroups (g1 g2 g3 g4 g5 : List Char) : String :=
  ⟨'V' :: 'e' :: 'M' :: 'o' :: 'x' :: (g1 ++ g2 ++ g3 ++ 'R' :: (g4 ++ g5))⟩

/-- `_format_vemox_version`: the optionally-prefixed numeric pattern,
else a 5-way dot split, else the input unchanged. -/
def formatVemoxVersion (version : String) : String :=
  match searchOptVemoxNum version.data with
  | some (g1, g2, g3, g4, g5) => formatGroups g1 g2 g3 g4 g5
  | none =>
    match splitDot version.data with
    | p0 :: p1 :: p2 :: p3 :: p4 :: _ => formatGroups p0 p1 p2 p3 p4
    | _ => version

/-- `_extract_vemox_from_svn_url`: scan the slash-separated parts in
order; in each part try the numeric pattern first, then the general
pattern (formatting the whole part); the first part with a match wins. -/
def extractVemoxFromSvnUrl (url : String) : Option String :=
  (splitSlash url.data).foldr
    (fun part acc =>
      match searchVemoxNum part with
      | some (g1, g2, g3, g4, g5) => some (formatGroups g1 g2 g3 g4 g5)
      | none =>
        if vemoxGeneralPattern part then some (formatVemoxVersion ⟨part⟩)
        else acc)
    none

def isHexLower (c : Char) : Bool :=
  c.isDigit || (('a'.toNat ≤ c.toNat) && (c.toNat ≤ 'f'.toNat))

/-- `@VeMoX_classic/release#` followed by at least one `[a-f0-9]`. -/
def conanSuffixOk (l : List Char) : Bool :=
  ("@VeMoX_classic/release#".data.isPrefixOf l) &&
    (match l.drop 23 with
     | c :: _ => isHexLower c
     | [] => false)

/-- The lazy `(\.\d+)*?` of the CONAN pattern: extend the captured group
one dot-run at a time, stopping at the first point where the suffix
matches (fuel bounds the recursion; each step strictly shortens the
rest). -/
def conanTailFuel (fuel : Nat) (acc rest : List Char) : Option (List Char) :=
  match fuel with
  | 0 => none
  | fuel + 1 =>
    if conanSuffixOk rest then some acc
    else
      match rest with
      | '.' :: r2 =>
        match spanDigits r2 with
        | (run, r3) =>
          if run.isEmpty then none
          else conanTailFuel fuel (acc ++ '.' :: run) r3
      | _ => none

/-- `VeMoX/(\d+(\.\d+)*?)@VeMoX_classic/release#[a-f0-9]+` at one
position (case-sensitive). -/
def conanAt (l : List Char) : Option (List Char) :=
  match l with
  | 'V' :: 'e' :: 'M' :: 'o' :: 'X' :: '/' :: rest =>
    match spanDigits rest with
    | (g1, r1) =>
      if g1.isEmpty then none else conanTailFuel (r1.length + 1) g1 r1
  | _ => none

def searchConan : List Char → Option (List Char)
  | [] => none
  | c :: rest => (conanAt (c :: rest)).orElse (fun _ => searchConan rest)

/-- `_extract_vemox_from_conan_package`. -/
def extractVemoxFromConanPackage (package : String) : Option String :=
  (searchConan package.data).map (fun g => formatVemoxVersion ⟨g⟩)

/-- `re.match(r'^VeMox\d{3}R\d{2}$', version)`. -/
def validConanFormat (s : String) : Bool :=
  match s.data with
  | 'V' :: 'e' :: 'M' :: 'o' :: 'x' :: d1 :: d2 :: d3 :: 'R' :: d4 :: d5 :: [] =>
    d1.isDigit && d2.isDigit && d3.isDigit && d4.isDigit && d5.isDigit
  | _ => false

/-- `_find_conan_version`: empty package yields none; the extracted and
formatted version must additionally validate. -/
def findConanVersion (it : SourceItem) : Option String :=
  match it.package with
  | none => none
  | some pkg =>
    if pkg = "" then none
    else
      match extractVemoxFromConanPackage pkg with
      | none => none
      | some v => if validConanFormat v then some v else none

/-- Set insertion (Python `set.add`) on a duplicate-free list. -/
def insertSet (v : String) (l : List String) : List String :=
  if l.contains v then l else l ++ [v]

/-- Python string `<=`: lexicographic by code points. -/
def strLeChars : List Char → List Char → Bool
  | [], _ => true
  | _ :: _, [] => false
  | a :: as, b :: bs =>
    if a.toNat < b.toNat then true
    else if b.toNat < a.toNat then false
    else strLeChars as bs

def pyStrLe (a b : String) : Bool := strLeChars a.data b.data

/-- Insertion into a sorted list. -/
def insSorted (v : String) : List String → List String
  | [] => [v]
  | x :: xs => if pyStrLe v x then v :: x :: xs else x :: insSorted v xs

/-- Python `sorted` on strings (insertion sort; on a duplicate-free list
the ordered result is unique, so this coincides with Python's stable
sort). -/
def sortStrings : List String → List String
  | [] => []
  | x :: xs => insSorted x (sortStrings xs)

/-- `_find_svn_versions`: collect, over the externals whose normalized
path ends with the normalized search path, the versions extracted from
the url, as a set; return them sorted. -/
def findSvnVersions (it : SourceItem) (pathValue : String) : List String :=
  sortStrings
    (it.externals.foldl
      (fun acc ext =>
        if pyEndsWith (replaceBackslash (pyLower (ext.path.getD "")))
            (replaceBackslash (pyLower pathValue)) then
          match extractVemoxFromSvnUrl (ext.url.getD "") with
          | some v => insertSet v acc
          | none => acc
        else acc)
      [])

/-- `find_vemox_versions` over parsed data: union the SVN and CONAN
versions of every item into a set and sort it. -/
def findVemoxVersions (items : List SourceItem) (pathValue : String) :
    List String :=
  sortStrings
    (items.foldl
      (fun acc it =>
        if pyUpper (it.itemType.getD "") = "SVN" then
          (findSvnVersions it pathValue).foldl (fun a v => insertSet v a) acc
        else if pyUpper (it.itemType.getD "") = "CONAN" then
          match findConanVersion it with
          | some v => insertSet v acc
          | none => acc
        else acc)
      [])

/-- `TISAPIService._extract_vemox_version`: the first element of the
found list, if any. -/
def extractVemoxVersion (items : List SourceItem) (pathValue : String) :
    Option String :=
  (findVemoxVersions items pathValue).head?

theorem strLeChars_total : ∀ as bs,
    (strLeChars as bs || strLeChars bs as) = true
  | [], bs => by cases bs <;> simp [strLeChars]
  | a :: as, [] => by simp [strLeChars]
  | a :: as, b :: bs => by
    rw [strLeChars, strLeChars]
    by_cases h1 : a.toNat < b.toNat
    · simp [h1]
    · by_cases h2 : b.toNat < a.toNat
      · simp [h1, h2]
      · simp [h1, h2, strLeChars_total as bs]

theorem strLeChars_trans : ∀ as bs cs, strLeChars as bs = true →
    strLeChars bs cs = true → strLeChars as cs = true
  | [], _, cs => by intros; cases cs <;> simp [strLeChars]
  | a :: as, [], cs => by intro h _; simp [strLeChars] at h
  | a :: as, b :: bs, [] => by intro _ h; simp [strLeChars] at h
  | a :: as, b :: bs, c :: cs => by
    intro hab hbc
    rw [strLeChars] at hab hbc ⊢
    by_cases hab1 : a.toNat < b.toNat
    · by_cases hbc1 : b.toNat < c.toNat
      · simp [show a.toNat < c.toNat by omega]
      · rw [if_neg hbc1] at hbc
        by_cases hbc2 : c.toNat < b.toNat
        · rw [if_pos hbc2] at hbc
          exact absurd hbc (by simp)
        · simp [show a.toNat < c.toNat by omega]
    · rw [if_neg hab1] at hab
      by_cases hab2 : b.toNat < a.toNat
      · rw [if_pos hab2] at hab
        exact absurd hab (by simp)
      · rw [if_neg hab2] at hab
        by_cases hbc1 : b.toNat < c.toNat
        · simp [show a.toNat < c.toNat by omega]
        · rw [if_neg hbc1] at hbc
          by_cases hbc2 : c.toNat < b.toNat
          · rw [if_pos hbc2] at hbc
            exact absurd hbc (by simp)
          · rw [if_neg hbc2] at hbc
            have hn1 : ¬ a.toNat < c.toNat := by omega
            have hn2 : ¬ c.toNat < a.toNat := by omega
            simp only [if_neg hn1, if_neg hn2]
            exact strLeChars_trans as bs cs hab hbc

theorem strLe_total (a b : String) : (pyStrLe a b || pyStrLe b a) = true :=
  strLeChars_total a.data b.data

theorem strLe_trans (a b c : String) (h1 : pyStrLe a b = true)
    (h2 : pyStrLe b c = true) : pyStrLe a c = true :=
  strLeChars_trans a.data b.data c.data h1 h2

theorem insSorted_perm (v : String) :
    ∀ l, List.Perm (insSorted v l) (v :: l)
  | [] => List.Perm.refl _
  | x :: xs => by
    rw [insSorted]
    by_cases h : pyStrLe v x = true
    · rw [if_pos h]
    · rw [if_neg h]
      exact ((insSorted_perm v xs).cons x).trans (List.Perm.swap v x xs)

theorem insSorted_pairwise (v : String) :
    ∀ l, List.Pairwise (fun a b => pyStrLe a b = true) l →
      List.Pairwise (fun a b => pyStrLe a b = true) (insSorted v l)
  | [], _ => by simp [insSorted]
  | x :: xs, h => by
    rw [insSorted]
    by_cases hle : pyStrLe v x = true
    · rw [if_pos hle]
      refine List.Pairwise.cons ?_ h
      intro b hb
      rcases List.mem_cons.mp hb with rfl | hb
      · exact hle
      · exact strLe_trans v x b hle (List.rel_of_pairwise_cons h hb)
    · rw [if_neg hle]
      have hxv : pyStrLe x v = true := by
        have htot := strLe_total v x
        rw [Bool.or_eq_true] at htot
        tauto
      refine List.Pairwise.cons ?_ (insSorted_pairwise v xs (List.Pairwise.of_cons h))
      intro b hb
      have hbmem : b ∈ v :: xs := (insSorted_perm v xs).mem_iff.mp hb
      rcases List.mem_cons.mp hbmem with rfl | hb'
      · exact hxv
      · exact List.rel_of_pairwise_cons h hb'

theorem sortStrings_perm : ∀ l, List.Perm (sortStrings l) l
  | [] => List.Perm.refl _
  | x :: xs => by
    rw [sortStrings]
    exact (insSorted_perm x (sortStrings xs)).trans ((sortStrings_perm xs).cons x)

theorem sortStrings_pairwise :
    ∀ l, List.Pairwise (fun a b => pyStrLe a b = true) (sortStrings l)
  | [] => List.Pairwise.nil
  | x :: xs => insSorted_pairwise x (sortStrings xs) (sortStrings_pairwise xs)

theorem sortStrings_nodup {l : List String} (h : l.Nodup) :
    (sortStrings l).Nodup :=
  (sortStrings_perm l).nodup_iff.mpr h

theorem insertSet_nodup (v : String) {l : List String} (h : l.Nodup) :
    (insertSet v l).Nodup := by
  unfold insertSet
  split
  · exact h
  case isFalse hc =>
    rw [List.nodup_append]
    refine ⟨h, List.nodup_singleton v, ?_⟩
    intro a ha hv
    rw [List.mem_singleton] at hv
    subst hv
    exact hc (by simpa using ha)

theorem foldl_insertSet_nodup :
    ∀ (vs : List String) (acc : List String), acc.Nodup →
      (vs.foldl (fun a v => insertSet v a) acc).Nodup
  | [], acc, h => h
  | v :: vs, acc, h =>
    foldl_insertSet_nodup vs (insertSet v acc) (insertSet_nodup v h)

theorem versionSet_nodup (pathValue : String) :
    ∀ (items : List SourceItem) (acc : List String), acc.Nodup →
      (items.foldl
        (fun acc it =>
          if pyUpper (it.itemType.getD "") = "SVN" then
            (findSvnVersions it pathValue).foldl (fun a v => insertSet v a) acc
          else if pyUpper (it.itemType.getD "") = "CONAN" then
            match findConanVersion it with
            | some v => insertSet v acc
            | none => acc
          else acc)
        acc).Nodup
  | [], _, h => h
  | it :: items, acc, h => by
    rw [List.foldl_cons]
    refine versionSet_nodup pathValue items _ ?_
    by_cases h1 : pyUpper (it.itemType.getD "") = "SVN"
    · rw [if_pos h1]
      exact foldl_insertSet_nodup _ acc h
    · rw [if_neg h1]
      by_cases h2 : pyUpper (it.itemType.getD "") = "CONAN"
      · rw [if_pos h2]
        cases findConanVersion it with
        | some v => exact insertSet_nodup v h
        | none => exact h
      · rw [if_neg h2]
        exact h

theorem foldr_skip_parts
    (f : List Char → Option String → Option String)
    (hf : ∀ p acc, searchVemoxNum p = none → vemoxGeneralPattern p = false →
      f p acc = acc) :
    ∀ (parts1 : List (List Char)) (acc : Option String),
      (∀ p ∈ parts1, searchVemoxNum p = none ∧ vemoxGeneralPattern p = false) →
      parts1.foldr f acc = acc
  | [], acc, _ => rfl
  | p :: parts1, acc, hskip => by
    rw [List.foldr_cons,
      foldr_skip_parts f hf parts1 acc (fun q hq => hskip q (List.mem_cons_of_mem p hq))]
    exact hf p acc (hskip p (List.mem_cons_self p parts1)).1
      (hskip p (List.mem_cons_self p parts1)).2

/-- The first slash-separated part with a match decides the extracted
version. -/
theorem extractUrl_first_match (url : String)
    (parts1 : List (List Char)) (part : List Char) (parts2 : List (List Char))
    (g1 g2 g3 g4 g5 : List Char)
    (hsplit : splitSlash url.data = parts1 ++ part :: parts2)
    (hskip : ∀ p ∈ parts1, searchVemoxNum p = none ∧ vemoxGeneralPattern p = false)
    (hm : searchVemoxNum part = some (g1, g2, g3, g4, g5)) :
    extractVemoxFromSvnUrl url = some (formatGroups g1 g2 g3 g4 g5) := by
  unfold extractVemoxFromSvnUrl
  rw [hsplit, List.foldr_append]
  rw [foldr_skip_parts _ ?_ parts1 _ hskip]
  · rw [List.foldr_cons, hm]
  · intro p acc hn hg
    dsimp only
    rw [hn, hg]
    simp

theorem digit_ne_slash {c : Char} (h : c.isDigit = true) : ¬(c = '/') :=
  fun he => absurd (he ▸ h) (by decide)

/-- The numeric pattern on a segment `vemox<d>.<d>.<d>.<d>.<d>` captures
the five digits. -/
theorem searchVemoxNum_segment (c1 c2 c3 c4 c5 : Char) (h1 : c1.isDigit = true)
    (h2 : c2.isDigit = true) (h3 : c3.isDigit = true) (h4 : c4.isDigit = true)
    (h5 : c5.isDigit = true) :
    searchVemoxNum
      ('v' :: 'e' :: 'm' :: 'o' :: 'x' ::
        c1 :: '.' :: c2 :: '.' :: c3 :: '.' :: c4 :: '.' :: c5 :: []) =
      some ([c1], [c2], [c3], [c4], [c5]) := by
  simp [searchVemoxNum, vemoxNumAt, vemoxPrefix, digitsPattern, matchDotRun,
    spanDigits, h1, h2, h3, h4, h5]

/-- **C7.** VeMoX version extraction: for a sources list holding an SVN
item with an external whose normalized path ends with the normalized
search path and whose url has, as its first matching slash-separated
segment, one of the shape `vemox<d>.<d>.<d>.<d>.<d>`, the found version
is `VeMox` + the first three digits + `R` + the last two, and the caller
receives it; and in general the found list is sorted by Python string
order and duplicate-free, and the extracted version is its first
element. -/
theorem vemox_version_parsing :
    (∀ (url : String) (parts1 : List (List Char)) (parts2 : List (List Char))
      (c1 c2 c3 c4 c5 : Char), c1.isDigit = true → c2.isDigit = true →
      c3.isDigit = true → c4.isDigit = true → c5.isDigit = true →
      splitSlash url.data = parts1 ++
        ('v' :: 'e' :: 'm' :: 'o' :: 'x' ::
          c1 :: '.' :: c2 :: '.' :: c3 :: '.' :: c4 :: '.' :: c5 :: []) :: parts2 →
      (∀ p ∈ parts1, searchVemoxNum p = none ∧ vemoxGeneralPattern p = false) →
      ∀ path pv : String,
        pyEndsWith (replaceBackslash (pyLower path))
          (replaceBackslash (pyLower pv)) = true →
        findVemoxVersions [⟨some "SVN", [⟨some path, some url⟩], none⟩] pv =
          [⟨'V' :: 'e' :: 'M' :: 'o' :: 'x' :: c1 :: c2 :: c3 :: 'R' :: c4 :: c5 :: []⟩] ∧
        extractVemoxVersion [⟨some "SVN", [⟨some path, some url⟩], none⟩] pv =
          some ⟨'V' :: 'e' :: 'M' :: 'o' :: 'x' :: c1 :: c2 :: c3 :: 'R' :: c4 :: c5 :: []⟩) ∧
    (∀ (items : List SourceItem) (pv : String),
      List.Pairwise (fun a b => pyStrLe a b = true) (findVemoxVersions items pv) ∧
      (findVemoxVersions items pv).Nodup ∧
      extractVemoxVersion items pv = (findVemoxVersions items pv).head?) := by
  constructor
  · intro url parts1 parts2 c1 c2 c3 c4 c5 h1 h2 h3 h4 h5 hsplit hskip path pv hend
    have hurl : extractVemoxFromSvnUrl url =
        some ⟨'V' :: 'e' :: 'M' :: 'o' :: 'x' :: c1 :: c2 :: c3 :: 'R' :: c4 :: c5 :: []⟩ := by
      have := extractUrl_first_match url parts1 _ parts2
        [c1] [c2] [c3] [c4] [c5] hsplit hskip
        (searchVemoxNum_segment c1 c2 c3 c4 c5 h1 h2 h3 h4 h5)
      rw [this]
      rfl
    have hfind : findVemoxVersions [⟨some "SVN", [⟨some path, some url⟩], none⟩] pv =
        [⟨'V' :: 'e' :: 'M' :: 'o' :: 'x' :: c1 :: c2 :: c3 :: 'R' :: c4 :: c5 :: []⟩] := by
      unfold findVemoxVersions findSvnVersions
      simp only [List.foldl_cons, List.foldl_nil, Option.getD_some]
      rw [if_pos (show pyUpper "SVN" = "SVN" from by decide), if_pos hend]
      simp only [hurl]
      rfl
    exact ⟨hfind, by rw [extractVemoxVersion, hfind]; rfl⟩
  · intro items pv
    refine ⟨?_, ?_, rfl⟩
    · unfold findVemoxVersions
      exact sortStrings_pairwise _
    · unfold findVemoxVersions
      exact sortStrings_nodup (versionSet_nodup pv items [] List.nodup_nil)

/-- Witness for C7: the configured search path and url segment
`vemox1.2.3.4.5` yield exactly `VeMox123R45`, which the caller receives. -/
theorem vemox_version_parsing_witness :
    findVemoxVersions
      [⟨some "SVN",
        [⟨some "proj/mdl/Simulink_VeMoX/src",
          some "http://s/vemox1.2.3.4.5/t"⟩],
        none⟩] "mdl/Simulink_VeMoX/src" = ["VeMox123R45"] ∧
    extractVemoxVersion
      [⟨some "SVN",
        [⟨some "proj/mdl/Simulink_VeMoX/src",
          some "http://s/vemox1.2.3.4.5/t"⟩],
        none⟩] "mdl/Simulink_VeMoX/src" = some "VeMox123R45" :=
  vemox_version_parsing.1 "http://s/vemox1.2.3.4.5/t"
    [['h', 't', 't', 'p', ':'], [], ['s']] [['t']]
    '1' '2' '3' '4' '5'
    (by decide) (by decide) (by decide) (by decide) (by decide)
    (by decide)
    (by intro p hp; fin_cases hp <;> exact ⟨by decide, by decide⟩)
    "proj/mdl/Simulink_VeMoX/src" "mdl/Simulink_VeMoX/src" (by decide)

end TISModel
